import Mathlib

/-!
# Buddy allocator, intrusive queue and init-once cell: a shallow embedding

Embedding of `src/buddy.hpp` (class `BuddyAllocator` with its private
`Freelist`), of `src/frigg/frg/queue.hpp` (`frg::intrusive_queue`) and of
`src/frigg/frg/init_once.hpp` (`frg::init_once`).

Conventions of the embedding.

* A pointer of type `uint64_t *` is the index of the 64-bit word it points to
  (byte address = 8 * index); `nullptr` is `0`.  Pointer arithmetic `p + n`
  is `p + n` on indices.  Every access the code makes is word aligned and
  every `memset` length is a multiple of 8, so memory is a map from word
  index to word value, and a range of `8 * n` bytes is a range of `n` words.
* Stateful code is explicit state passing.  A call that leaves defined
  behaviour returns a `Fault`: `trap` for a failed `assert`, `undefined`
  for an out-of-bounds array index or a signed overflow, `outOfFuel` when a
  loop whose length is data dependent (`Freelist::find`, the recursion of
  `coalesce`) exceeds the bound given by the caller.
* `sanity_checks` and `verbose` are `false`, as in the source.
-/

namespace Buddy

/-- Ways a call can leave defined behaviour. -/
inductive Fault where
  | trap
  | undefined
  | outOfFuel
  deriving DecidableEq, Repr

/-- Word-indexed memory. -/
abbrev Mem := Nat → Nat

/-- Pointwise update of a map from naturals. -/
def upd (f : Nat → Nat) (i v : Nat) : Nat → Nat :=
  fun j => if j = i then v else f j

/-- The word obtained by repeating the byte `c` eight times. -/
def fillWord (c : Nat) : Nat := (c % 256) * 0x0101010101010101

/-- The call `memset(p, c, nbytes)` for a word aligned `p` and `nbytes` a multiple of 8. -/
def memset (m : Mem) (p c nbytes : Nat) : Mem :=
  fun a => if p ≤ a ∧ a < p + nbytes / 8 then fillWord c else m a

/-- Enum `FillMode`. -/
inductive FillMode where
  | ZERO
  | NONE
  deriving DecidableEq, Repr

/-- Underlying `char` value of a `FillMode`. -/
def FillMode.val : FillMode → Nat
  | .ZERO => 0
  | .NONE => 1

/-- Struct `BuddyAllocationResult`. -/
structure BuddyAllocationResult where
  ptr : Nat
  order : Int
  npages : Int
  deriving DecidableEq, Repr

/-- Value-initialised result `BuddyAllocationResult()`. -/
def BuddyAllocationResult.null : BuddyAllocationResult := ⟨0, 0, 0⟩

def min_order : Nat := 9

def largest_allowed_order : Nat := 30

def sanity_checks : Bool := false

/-- Template argument `orders` of the freelist bank: the array has `orders + 1` slots. -/
def orders : Nat := largest_allowed_order - min_order

/-- The allocator object together with the memory it manages. -/
structure State where
  max_order : Nat
  list : Nat → Nat
  base : Nat
  mem : Mem

/-- The guard compiled into `Freelist::add` and `Freelist::remove` when sanity checks are on. -/
def sanityTrap (enabled : Bool) (order : Nat) : Bool :=
  enabled && (decide (order < min_order) || decide (order > largest_allowed_order))

/-- Method `Freelist::init`. -/
def Freelist.init (s : State) : State :=
  { s with list := fun _ => 0 }

/-- Method `Freelist::add`. -/
def Freelist.add (s : State) (block order : Nat) : Except Fault State :=
  if sanityTrap sanity_checks order then .error .trap
  else if order > orders then .error .undefined
  else if block ≠ 0 then
    let m1 := memset s.mem block 0 4096
    let m2 := upd m1 block (s.list order)
    .ok { s with mem := m2, list := upd s.list order block }
  else
    .ok { s with list := upd s.list order block }

/-- Method `Freelist::remove`. -/
def Freelist.remove (s : State) (order : Nat) : Except Fault (Nat × State) :=
  if sanityTrap sanity_checks order then .error .trap
  else if order > orders then .error .undefined
  else
    let element := s.list order
    if element = 0 then .ok (0, s)
    else
      let l1 := upd s.list order (s.mem (s.list order))
      let l2 := upd l1 order 0
      .ok (element, { s with list := l2 })

/-- Method `Freelist::next`. -/
def Freelist.next (s : State) (block : Nat) : Nat := s.mem block

/-- The loop of `Freelist::find`, for at most `fuel` steps along the chain. -/
def Freelist.findLoop (s : State) (block : Nat) : Nat → Nat → Except Fault Bool
  | 0, element =>
    if element ≠ 0 ∧ element ≠ block then .error .outOfFuel else .ok (decide (element ≠ 0))
  | fuel + 1, element =>
    if element ≠ 0 ∧ element ≠ block then Freelist.findLoop s block fuel (Freelist.next s element)
    else .ok (decide (element ≠ 0))

/-- Method `Freelist::find`. -/
def Freelist.find (fuel : Nat) (s : State) (block order : Nat) : Except Fault Bool :=
  if order > orders then .error .undefined
  else Freelist.findLoop s block fuel (s.list order)

/-- Conversion of an unsigned value to `int`. -/
def toInt32 (n : Nat) : Int :=
  if n % 2 ^ 32 < 2 ^ 31 then ((n % 2 ^ 32 : Nat) : Int) else ((n % 2 ^ 32 : Nat) : Int) - 2 ^ 32

/-- Method `BuddyAllocator::buddy_of`: `base + ((block - base) ^ (1 << order))`.
`block - base` is a signed `ptrdiff_t` counted in 8-byte words, `1 << order` is
an `int` (`INT_MIN` at `order = 31`; `alloc` and `free` call with `order <
max_order`), the XOR is taken in two's complement and its result added to the
pointer `base`. -/
def buddy_of (s : State) (block order : Nat) : Nat :=
  ((s.base : Int) + Int.xor ((block : Int) - (s.base : Int)) (toInt32 (1 <<< order))).toNat

/-- The loop of `BuddyAllocator::log2`; `fuel + result = 31`.  A `size` above
`2 ^ 30` gets to `result = 31`, where `1 << 31` is `INT_MIN`, below `size`, and
the next shift, by 32, is undefined. -/
def log2Loop (size : Int) : Nat → Nat → Except Fault Nat
  | 0, _ => .error .undefined
  | fuel + 1, result =>
    if (2 : Int) ^ result < size then log2Loop size fuel (result + 1) else .ok result

/-- Method `BuddyAllocator::log2`. -/
def log2 (size : Int) : Except Fault Nat := log2Loop size 31 0

/-- Method `BuddyAllocator::init`; `target_order - 3` is converted to `uint64_t`. -/
def init (m : Mem) (base : Nat) (target_order : Int) : Except Fault State :=
  let max_order := ((target_order - 3) % 2 ^ 64).toNat
  let s : State := { max_order := max_order, list := fun _ => 0, base := base, mem := m }
  Freelist.add (Freelist.init s) base ((max_order + 2 ^ 64 - min_order) % 2 ^ 64)

/-- The search loop of `alloc`: `for (; ord <= max_order; ord++)`, with `n` the
number of orders left to try; yields `block`, `ord` and the state after the loop. -/
def scanLoop : Nat → State → Nat → Except Fault (Nat × Nat × State)
  | 0, s, ord => .ok (0, ord, s)
  | n + 1, s, ord =>
    match Freelist.remove s (ord - min_order) with
    | .error e => .error e
    | .ok (block, s1) =>
      if block ≠ 0 then .ok (block, ord, s1) else scanLoop n s1 (ord + 1)

/-- The split loop of `alloc`: `while (ord-- > order)`, for at most `n`
iterations.  The test compares and then decrements, so the body sees the
decremented `ord`, and when the test fails the `uint64_t` is decremented once
more; the result is the state and that final value of `ord`. -/
def splitLoop (block order : Nat) : Nat → State → Nat → Except Fault (State × Nat)
  | 0, s, ord =>
    if ord > order then .error .outOfFuel else .ok (s, (ord + 2 ^ 64 - 1) % 2 ^ 64)
  | n + 1, s, ord =>
    if ord > order then
      match Freelist.add s (buddy_of s block (ord - 1)) (ord - 1 - min_order) with
      | .error e => .error e
      | .ok s1 => splitLoop block order n s1 (ord - 1)
    else .ok (s, (ord + 2 ^ 64 - 1) % 2 ^ 64)

/-- The end of `alloc`, from `correct_size` on, with `ord` the value left by the
split loop.  `correct_size = 1 << (order + 3)` is an `int`: for `order + 3 = 31` it
is `INT_MIN`, for a larger count the shift is undefined.  `memset` takes
`correct_size` as a `size_t`, so a negative value runs far beyond the region.
The result carries `ord + 1` and `correct_size / 4096`, both converted to `int`. -/
def allocFinish (s : State) (block order ord : Nat) (fill : FillMode) :
    Except Fault (BuddyAllocationResult × State) :=
  if order + 3 ≥ 32 then .error .undefined
  else
    let correct_size : Int := toInt32 (2 ^ (order + 3))
    let result : BuddyAllocationResult :=
      ⟨block, toInt32 ((ord + 1) % 2 ^ 64), Int.tdiv correct_size 4096⟩
    if fill ≠ FillMode.NONE then
      if correct_size < 0 then .error .undefined
      else .ok (result, { s with mem := memset s.mem block fill.val correct_size.toNat })
    else .ok (result, s)

/-- Method `BuddyAllocator::alloc`: the order computation, the search loop, the
split loop, and `allocFinish` for the rest. -/
def alloc (s : State) (size : Nat) (fill : FillMode) :
    Except Fault (BuddyAllocationResult × State) :=
  match log2 (toInt32 (size % 2 ^ 64 / 8)) with
  | .error e => .error e
  | .ok l =>
    let order := max min_order l
    if sanity_checks && decide (order > s.max_order) then .ok (BuddyAllocationResult.null, s)
    else
      match scanLoop (s.max_order + 1 - order) s order with
      | .error e => .error e
      | .ok (block, ord, s1) =>
        if block = 0 then .ok (BuddyAllocationResult.null, s1)
        else
          match splitLoop block order (ord - order) s1 ord with
          | .error e => .error e
          | .ok (s2, ord2) => allocFinish s2 block order ord2 fill

/-- Method `BuddyAllocator::coalesce`; `fuel` bounds the recursion depth and
each chain walk of `find`. -/
def coalesce : Nat → State → Nat → Nat → Except Fault State
  | 0, s, _, order => if order = s.max_order then .ok s else .error .outOfFuel
  | fuel + 1, s, block, order =>
    if order = s.max_order then .ok s
    else
      let buddy := buddy_of s block order
      if buddy = 0 then .ok s
      else
        match Freelist.find (fuel + 1) s buddy (order - min_order) with
        | .error e => .error e
        | .ok is_buddy_free =>
          if is_buddy_free then
            match Freelist.remove s order with
            | .error e => .error e
            | .ok (_, s1) =>
              match coalesce fuel s1 (min block buddy) (order + 1) with
              | .error e => .error e
              | .ok s2 => Freelist.add s2 block (order - min_order)
          else Freelist.add s block (order - min_order)

/-- Method `BuddyAllocator::free`. -/
def free (fuel : Nat) (s : State) (block order : Nat) : Except Fault State :=
  if ¬ (order ≥ min_order ∧ order ≤ s.max_order) then .error .trap
  else if block = 0 then .ok s
  else if order = s.max_order then Freelist.add s block (s.max_order - min_order)
  else coalesce fuel s block order

end Buddy

namespace frg

/-- Enum `queue_result`. -/
inductive queue_result where
  | Fail
  | Okay
  deriving DecidableEq, Repr

/-- An `intrusive_queue<T>` together with the `next` field of every item's
hook; items are non-null addresses and `nullptr` is `0`. -/
structure intrusive_queue where
  size : Nat
  back : Nat
  front : Nat
  next : Nat → Nat

/-- A default-constructed queue over a heap of hooks. -/
def intrusive_queue.mk0 (next : Nat → Nat) : intrusive_queue :=
  { size := 0, back := 0, front := 0, next := next }

/-- Method `intrusive_queue::empty`. -/
def intrusive_queue.empty (q : intrusive_queue) : Bool := decide (q.front = 0)

/-- Method `intrusive_queue::enqueue`; `_size` is a `size_t`. -/
def intrusive_queue.enqueue (q : intrusive_queue) (item : Nat) : queue_result × intrusive_queue :=
  if item = 0 then (.Fail, q)
  else
    let q1 : intrusive_queue := if q.back = 0 then { q with front := item, back := item } else q
    let q2 : intrusive_queue := { q1 with next := Buddy.upd q1.next q1.back item }
    let q3 : intrusive_queue := { q2 with back := item }
    (.Okay, { q3 with size := (q3.size + 1) % 2 ^ 64 })

/-- Method `intrusive_queue::enqueue_head`; `old_front` is a reference to
`_front`, so it is read after `_front = item`. -/
def intrusive_queue.enqueue_head (q : intrusive_queue) (item : Nat) :
    queue_result × intrusive_queue :=
  if item = 0 then (.Fail, q)
  else
    let q1 : intrusive_queue := if q.back = 0 then { q with front := item, back := item } else q
    let q2 : intrusive_queue := { q1 with front := item }
    let old_front := q2.front
    let q3 : intrusive_queue := { q2 with next := Buddy.upd q2.next q2.front (q2.next old_front) }
    let q4 : intrusive_queue := { q3 with back := item }
    (.Okay, { q4 with size := (q4.size + 1) % 2 ^ 64 })

/-- Method `intrusive_queue::dequeue`; `_size--` wraps as a `size_t`. -/
def intrusive_queue.dequeue (q : intrusive_queue) : Nat × intrusive_queue :=
  if q.empty then (0, q)
  else
    let node := q.front
    let q1 : intrusive_queue := { q with front := q.next q.front }
    let q2 : intrusive_queue := if q1.front = 0 then { q1 with back := 0 } else q1
    (node, { q2 with size := (q2.size + 2 ^ 64 - 1) % 2 ^ 64 })

/-- Enqueue the items of a list in order, ignoring the result codes. -/
def enqueueAll (q : intrusive_queue) : List Nat → intrusive_queue
  | [] => q
  | a :: l => enqueueAll (q.enqueue a).2 l

/-- Call `dequeue` `n` times, collecting the returned pointers in call order. -/
def dequeueN : Nat → intrusive_queue → List Nat × intrusive_queue
  | 0, q => ([], q)
  | n + 1, q =>
    let r := q.dequeue
    let rest := dequeueN n r.2
    (r.1 :: rest.1, rest.2)

end frg

namespace Buddy

/-- The chain that starts at pointer `p` and follows the link words of `m`
consists of exactly the blocks of the list, in order, and ends in `nullptr`. -/
def isChain (m : Mem) : Nat → List Nat → Prop
  | p, [] => p = 0
  | p, b :: l => p = b ∧ b ≠ 0 ∧ isChain m (m b) l

/-- The heads of the slots `0 .. orders` of the freelist bank. -/
def heads (s : State) : List Nat := (List.range (orders + 1)).map s.list

/-- An uninitialised heap: every word holds the same junk pattern. -/
def heap0 : Mem := fun _ => 0xCDCDCDCDCDCDCDCD

/-- Base of the demonstration region (word index; byte address `2 ^ 30`). -/
def base0 : Nat := 2 ^ 27

/-- The state that `init(base0, 30)` produces on `heap0`. -/
def state0 : State :=
  { max_order := 27
    list := upd (fun _ => 0) 18 base0
    base := base0
    mem := upd (memset heap0 base0 0 4096) base0 0 }

/-- The state a call of `alloc` leaves behind (the state itself on a fault). -/
def afterAlloc (s : State) (size : Nat) (fill : FillMode) : State :=
  match alloc s size fill with
  | .ok (_, s') => s'
  | .error _ => s

/-- The state after `init(base0, 30)` and `alloc(8192, NONE)`. -/
def state1 : State := afterAlloc state0 8192 FillMode.NONE

end Buddy

namespace frg

/-- Modelled from the spec: macro `FRG_LIKELY` of `frg/macros.hpp`, a header that
is not among the sources.  The init-once cell of the spec ignores an assignment
exactly when its accessed bit is set, so the macro, a branch-prediction hint,
yields the truth value of its argument. -/
def FRG_LIKELY (b : Bool) : Bool := b

/-- Class `init_once<T>`: the `accessed` flag and the stored value. -/
structure init_once (α : Type) where
  accessed : Bool
  storage : α

/-- Constructor `init_once()`: `accessed` is `false` and `storage` is left
uninitialised, here the arbitrary value `junk`. -/
def init_once.fresh {α : Type} (junk : α) : init_once α :=
  { accessed := false, storage := junk }

/-- Constructor `init_once(T _storage)`: only `storage` is set. -/
def init_once.ofValue {α : Type} (v : α) : init_once α :=
  { accessed := false, storage := v }

/-- Method `init_once::check_assign`. -/
def init_once.check_assign {α : Type} (c : init_once α) (v : α) : init_once α :=
  if FRG_LIKELY c.accessed then c
  else { c with storage := v, accessed := true }

/-- Method `init_once::initialize`. -/
def init_once.initialize {α : Type} (c : init_once α) (v : α) : init_once α :=
  c.check_assign v

/-- Method `init_once::operator=`. -/
def init_once.assign {α : Type} (c : init_once α) (v : α) : init_once α :=
  c.check_assign v

/-- Method `init_once::get`. -/
def init_once.get {α : Type} (c : init_once α) : α := c.storage

/-- Method `init_once::assignable`. -/
def init_once.assignable {α : Type} (c : init_once α) : Bool := c.accessed

/-- One assignment to a cell, through `operator=` or through `initialize`. -/
inductive Assignment (α : Type) where
  | viaAssign (v : α)
  | viaInitialize (v : α)

/-- The value an assignment carries. -/
def Assignment.value {α : Type} : Assignment α → α
  | .viaAssign v => v
  | .viaInitialize v => v

/-- Perform one assignment. -/
def init_once.step {α : Type} (c : init_once α) : Assignment α → init_once α
  | .viaAssign v => c.assign v
  | .viaInitialize v => c.initialize v

/-- Perform a sequence of assignments, first to last. -/
def init_once.run {α : Type} (c : init_once α) : List (Assignment α) → init_once α
  | [] => c
  | w :: ws => init_once.run (c.step w) ws

end frg

namespace Buddy

/-- The state after `init(base0, 30)` and `alloc(4096, ZERO)` (scenario S1). -/
def stateS1 : State := afterAlloc state0 4096 FillMode.ZERO

/-- The state after `init(base0, 30)` and `alloc(2 ^ 25, ZERO)`. -/
def state32M : State := afterAlloc state0 (2 ^ 25) FillMode.ZERO

/-- Method `Freelist::add` in a build whose `sanity_checks` flag is `enabled`. -/
def Freelist.addChecked (enabled : Bool) (s : State) (block order : Nat) : Except Fault State :=
  if sanityTrap enabled order then .error .trap
  else if order > orders then .error .undefined
  else if block ≠ 0 then
    let m1 := memset s.mem block 0 4096
    let m2 := upd m1 block (s.list order)
    .ok { s with mem := m2, list := upd s.list order block }
  else
    .ok { s with list := upd s.list order block }

/-- Method `Freelist::remove` in a build whose `sanity_checks` flag is `enabled`. -/
def Freelist.removeChecked (enabled : Bool) (s : State) (order : Nat) :
    Except Fault (Nat × State) :=
  if sanityTrap enabled order then .error .trap
  else if order > orders then .error .undefined
  else
    let element := s.list order
    if element = 0 then .ok (0, s)
    else
      let l1 := upd s.list order (s.mem (s.list order))
      let l2 := upd l1 order 0
      .ok (element, { s with list := l2 })

/-- Method `BuddyAllocator::init` in a build whose `sanity_checks` flag is `enabled`. -/
def initChecked (enabled : Bool) (m : Mem) (base : Nat) (target_order : Int) :
    Except Fault State :=
  let max_order := ((target_order - 3) % 2 ^ 64).toNat
  let s : State := { max_order := max_order, list := fun _ => 0, base := base, mem := m }
  Freelist.addChecked enabled (Freelist.init s) base ((max_order + 2 ^ 64 - min_order) % 2 ^ 64)

/-- The search loop of `alloc` in a build whose `sanity_checks` flag is `enabled`. -/
def scanLoopChecked (enabled : Bool) : Nat → State → Nat → Except Fault (Nat × Nat × State)
  | 0, s, ord => .ok (0, ord, s)
  | n + 1, s, ord =>
    match Freelist.removeChecked enabled s (ord - min_order) with
    | .error e => .error e
    | .ok (block, s1) =>
      if block ≠ 0 then .ok (block, ord, s1) else scanLoopChecked enabled n s1 (ord + 1)

/-- The split loop of `alloc` in a build whose `sanity_checks` flag is `enabled`. -/
def splitLoopChecked (enabled : Bool) (block order : Nat) :
    Nat → State → Nat → Except Fault (State × Nat)
  | 0, s, ord =>
    if ord > order then .error .outOfFuel else .ok (s, (ord + 2 ^ 64 - 1) % 2 ^ 64)
  | n + 1, s, ord =>
    if ord > order then
      match Freelist.addChecked enabled s (buddy_of s block (ord - 1)) (ord - 1 - min_order) with
      | .error e => .error e
      | .ok s1 => splitLoopChecked enabled block order n s1 (ord - 1)
    else .ok (s, (ord + 2 ^ 64 - 1) % 2 ^ 64)

/-- Method `BuddyAllocator::alloc` in a build whose `sanity_checks` flag is `enabled`. -/
def allocChecked (enabled : Bool) (s : State) (size : Nat) (fill : FillMode) :
    Except Fault (BuddyAllocationResult × State) :=
  match log2 (toInt32 (size % 2 ^ 64 / 8)) with
  | .error e => .error e
  | .ok l =>
    let order := max min_order l
    if enabled && decide (order > s.max_order) then .ok (BuddyAllocationResult.null, s)
    else
      match scanLoopChecked enabled (s.max_order + 1 - order) s order with
      | .error e => .error e
      | .ok (block, ord, s1) =>
        if block = 0 then .ok (BuddyAllocationResult.null, s1)
        else
          match splitLoopChecked enabled block order (ord - order) s1 ord with
          | .error e => .error e
          | .ok (s2, ord2) => allocFinish s2 block order ord2 fill

end Buddy

namespace Buddy

/-- Method `BuddyAllocator::coalesce` as in `coalesce`, returning in addition the
number of recursive calls the run made. -/
def coalesceCalls : Nat → State → Nat → Nat → Except Fault (State × Nat)
  | 0, s, _, order => if order = s.max_order then .ok (s, 0) else .error .outOfFuel
  | fuel + 1, s, block, order =>
    if order = s.max_order then .ok (s, 0)
    else
      let buddy := buddy_of s block order
      if buddy = 0 then .ok (s, 0)
      else
        match Freelist.find (fuel + 1) s buddy (order - min_order) with
        | .error e => .error e
        | .ok is_buddy_free =>
          if is_buddy_free then
            match Freelist.remove s order with
            | .error e => .error e
            | .ok (_, s1) =>
              match coalesceCalls fuel s1 (min block buddy) (order + 1) with
              | .error e => .error e
              | .ok (s2, n) =>
                match Freelist.add s2 block (order - min_order) with
                | .error e => .error e
                | .ok s3 => .ok (s3, n + 1)
          else
            match Freelist.add s block (order - min_order) with
            | .error e => .error e
            | .ok s3 => .ok (s3, 0)

/-- Forget the call count of a run of `coalesceCalls`. -/
def dropCalls : Except Fault (State × Nat) → Except Fault State
  | .ok (s, _) => .ok s
  | .error e => .error e

end Buddy

namespace Buddy

/-- The blocks `[p, p + 2 ^ o)` and `[q, q + 2 ^ o')`, in words, do not overlap. -/
def disjointBlocks (p o q o' : Nat) : Prop := p + 2 ^ o ≤ q ∨ q + 2 ^ o' ≤ p

/-- States reachable from `init(base, T)` on heap `m` by calls of `alloc` only,
together with the list of the live allocations: the pair `(ptr, order)` of every
call that returned a non-null block, latest first. -/
inductive AllocOnly (m : Mem) (base T : Nat) : State → List (Nat × Nat) → Prop where
  | init {s : State} : init m base (T : Int) = .ok s → AllocOnly m base T s []
  | failed {s s' : State} {L : List (Nat × Nat)} {size : Nat} {fill : FillMode}
      {r : BuddyAllocationResult} :
      AllocOnly m base T s L → alloc s size fill = .ok (r, s') → r.ptr = 0 →
      AllocOnly m base T s' L
  | served {s s' : State} {L : List (Nat × Nat)} {size : Nat} {fill : FillMode}
      {r : BuddyAllocationResult} :
      AllocOnly m base T s L → alloc s size fill = .ok (r, s') → r.ptr ≠ 0 →
      AllocOnly m base T s' ((r.ptr, r.order.toNat) :: L)

/-- Invariant of the alloc-only states of a region of `2 ^ M` words at `base`:
every non-empty slot `i` holds exactly one block, of order `i + 9`, aligned and
inside the region; the free blocks and the live blocks are pairwise disjoint and
together cover the region. -/
structure AllocInv (base M : Nat) (s : State) (L : List (Nat × Nat)) : Prop where
  hbase : s.base = base
  hmax : s.max_order = M
  free_ok : ∀ i, s.list i ≠ 0 →
    i + 9 ≤ M ∧ base ≤ s.list i ∧ 2 ^ (i + 9) ∣ (s.list i - base) ∧
      s.list i + 2 ^ (i + 9) ≤ base + 2 ^ M ∧ s.mem (s.list i) = 0
  free_disj : ∀ i j, i ≠ j → s.list i ≠ 0 → s.list j ≠ 0 →
    disjointBlocks (s.list i) (i + 9) (s.list j) (j + 9)
  live_ok : ∀ a, a ∈ L →
    9 ≤ a.2 ∧ base ≤ a.1 ∧ 2 ^ a.2 ∣ (a.1 - base) ∧ a.1 + 2 ^ a.2 ≤ base + 2 ^ M
  live_disj : L.Pairwise (fun a c => disjointBlocks a.1 a.2 c.1 c.2)
  live_free : ∀ a, a ∈ L → ∀ i, s.list i ≠ 0 → disjointBlocks a.1 a.2 (s.list i) (i + 9)
  cover : ∀ x, base ≤ x → x < base + 2 ^ M →
    (∃ a, a ∈ L ∧ a.1 ≤ x ∧ x < a.1 + 2 ^ a.2) ∨
      (∃ i, s.list i ≠ 0 ∧ s.list i ≤ x ∧ x < s.list i + 2 ^ (i + 9))

end Buddy

namespace Buddy

/-- The state after `init(base0, 30)`, `alloc(4096, ZERO)` and `alloc(8192, NONE)`. -/
def stateS1b : State := afterAlloc stateS1 8192 FillMode.NONE

end Buddy

namespace Buddy

/-- The state after `init(base0, 31)`: `max_order = 28`, the whole region of
`2 ^ 28` words is one free block in slot `28 - min_order = 19`. -/
def state31 : State :=
  { max_order := 28, list := upd (fun _ => 0) 19 base0, base := base0,
    mem := upd (memset heap0 base0 0 4096) base0 0 }

end Buddy

namespace Buddy

/-! ## Elementary facts about the freelist bank -/

theorem sanityTrap_off (order : Nat) : sanityTrap sanity_checks order = false := by
  simp [sanityTrap, sanity_checks]

theorem orders_eq : orders = 21 := by decide

theorem fillWord_zero : fillWord 0 = 0 := by decide

theorem add_ok (s : State) (block order : Nat) (h : order ≤ 21) :
    Freelist.add s block order =
      .ok (if block ≠ 0 then
            { s with mem := upd (memset s.mem block 0 4096) block (s.list order),
                     list := upd s.list order block }
          else { s with list := upd s.list order block }) := by
  have h2 : ¬ order > orders := by rw [orders_eq]; omega
  unfold Freelist.add
  rw [sanityTrap_off]
  by_cases hb : block = 0 <;> simp [h2, hb]

theorem remove_ok (s : State) (order : Nat) (h : order ≤ 21) :
    Freelist.remove s order =
      .ok (if s.list order = 0 then (0, s)
          else (s.list order,
                { s with list := upd (upd s.list order (s.mem (s.list order))) order 0 })) := by
  have h2 : ¬ order > orders := by rw [orders_eq]; omega
  unfold Freelist.remove
  rw [sanityTrap_off]
  by_cases hb : s.list order = 0 <;> simp [h2, hb]

theorem upd_same (f : Nat → Nat) (i v : Nat) : upd f i v i = v := by
  simp [upd]

theorem upd_other (f : Nat → Nat) (i v j : Nat) (h : j ≠ i) : upd f i v j = f j := by
  simp [upd, h]

theorem memset_in (m : Mem) (p n a : Nat) (h1 : p ≤ a) (h2 : a < p + n / 8) :
    memset m p 0 n a = 0 := by
  simp [memset, h1, h2, fillWord_zero]

theorem memset_out (m : Mem) (p c n a : Nat) (h : a < p ∨ p + n / 8 ≤ a) :
    memset m p c n a = m a := by
  unfold memset
  rw [if_neg]
  omega

/-! ## The order computation -/

theorem toInt32_small (n : Nat) (h : n < 2 ^ 31) : toInt32 n = (n : Int) := by
  unfold toInt32
  have h1 : n % 2 ^ 32 = n := Nat.mod_eq_of_lt (by omega)
  rw [h1, if_pos h]

theorem log2Loop_clog (n : Nat) :
    ∀ fuel result : Nat, result ≤ Nat.clog 2 n → Nat.clog 2 n < result + fuel →
      log2Loop (n : Int) fuel result = .ok (Nat.clog 2 n) := by
  intro fuel
  induction fuel with
  | zero => intro result h1 h2; omega
  | succ fuel ih =>
    intro result h1 h2
    unfold log2Loop
    by_cases hlt : (2 : Int) ^ result < (n : Int)
    · rw [if_pos hlt]
      have hlt2 : 2 ^ result < n := by exact_mod_cast hlt
      have h3 : result < Nat.clog 2 n := (Nat.pow_lt_iff_lt_clog (by decide)).1 hlt2
      exact ih (result + 1) h3 (by omega)
    · rw [if_neg hlt]
      have hle : n ≤ 2 ^ result := by
        have : ¬ (2 ^ result < n) := by
          intro hc
          apply hlt
          exact_mod_cast hc
        omega
      have h3 : Nat.clog 2 n ≤ result := (Nat.le_pow_iff_clog_le (by decide)).1 hle
      have : result = Nat.clog 2 n := by omega
      rw [this]

theorem log2_eq_clog (n : Nat) (h : n ≤ 2 ^ 30) : log2 (n : Int) = .ok (Nat.clog 2 n) := by
  unfold log2
  apply log2Loop_clog
  · omega
  · have : Nat.clog 2 n ≤ 30 := (Nat.le_pow_iff_clog_le (by decide)).1 h
    omega

theorem alloc_order (size : Nat) (h : size / 8 ≤ 2 ^ 30) :
    log2 (toInt32 (size % 2 ^ 64 / 8)) = .ok (Nat.clog 2 (size / 8)) := by
  have h1 : size % 2 ^ 64 = size := Nat.mod_eq_of_lt (by omega)
  rw [h1, toInt32_small _ (by omega)]
  exact log2_eq_clog _ h

end Buddy

namespace Buddy

/-! ## Shape of a call of `alloc` -/

/-- For sizes whose word count fits an `int`, `alloc` with the order computation resolved. -/
theorem alloc_unfold (s : State) (size : Nat) (fill : FillMode) (h : size / 8 ≤ 2 ^ 30) :
    alloc s size fill =
      match scanLoop (s.max_order + 1 - max min_order (Nat.clog 2 (size / 8))) s
          (max min_order (Nat.clog 2 (size / 8))) with
      | .error e => .error e
      | .ok (block, ord, s1) =>
        if block = 0 then .ok (BuddyAllocationResult.null, s1)
        else
          match splitLoop block (max min_order (Nat.clog 2 (size / 8)))
              (ord - max min_order (Nat.clog 2 (size / 8))) s1 ord with
          | .error e => .error e
          | .ok (s2, ord2) =>
            allocFinish s2 block (max min_order (Nat.clog 2 (size / 8))) ord2 fill := by
  unfold alloc
  rw [alloc_order size h]
  simp only [sanity_checks, Bool.false_and, Bool.false_eq_true, if_false]

/-- The end of `alloc` for a requested order of at most 27, after a split loop
that left `ord = order - 1`. -/
theorem allocFinish_small (s : State) (block r : Nat) (fill : FillMode) (h9 : 9 ≤ r)
    (h27 : r ≤ 27) :
    allocFinish s block r (r - 1) fill =
      .ok (⟨block, ((r : Nat) : Int), ((2 ^ (r + 3) / 4096 : Nat) : Int)⟩,
           if fill ≠ FillMode.NONE then
             { s with mem := memset s.mem block fill.val (2 ^ (r + 3)) }
           else s) := by
  have hlt : 2 ^ (r + 3) < 2 ^ 31 := Nat.pow_lt_pow_right (by decide) (by omega)
  have hord : (r - 1 + 1) % 2 ^ 64 = r := by
    rw [Nat.sub_add_cancel (by omega)]
    exact Nat.mod_eq_of_lt (by omega)
  have hnn : ¬ (((2 ^ (r + 3) : Nat) : Int) < 0) := Int.not_lt.2 (Int.ofNat_nonneg _)
  unfold allocFinish
  rw [if_neg (by omega), hord, toInt32_small _ hlt, toInt32_small r (by omega)]
  simp only [hnn, if_false, Int.toNat_ofNat]
  by_cases hf : fill = FillMode.NONE
  · simp only [hf, ne_eq, not_true_eq_false, if_false]
    rfl
  · simp only [hf, ne_eq, not_false_eq_true, if_true]
    rfl

theorem allocFinish_ptr (s s' : State) (block order ord : Nat) (fill : FillMode)
    (r : BuddyAllocationResult) (h : allocFinish s block order ord fill = .ok (r, s')) :
    r.ptr = block := by
  unfold allocFinish at h
  by_cases h1 : order + 3 ≥ 32
  · rw [if_pos h1] at h
    cases h
  · rw [if_neg h1] at h
    dsimp only at h
    by_cases hf : fill ≠ FillMode.NONE
    · rw [if_pos hf] at h
      by_cases hc : toInt32 (2 ^ (order + 3)) < 0
      · rw [if_pos hc] at h
        cases h
      · rw [if_neg hc] at h
        cases h
        rfl
    · rw [if_neg hf] at h
      cases h
      rfl

end Buddy

namespace Buddy

/-! ## Buddy arithmetic -/

theorem xor_two_pow_of_dvd (x k : Nat) (h : 2 ^ (k + 1) ∣ x) : x ^^^ 2 ^ k = x + 2 ^ k := by
  obtain ⟨c, rfl⟩ := h
  have hlt : 2 ^ k < 2 ^ (k + 1) := Nat.pow_lt_pow_right (by decide) (by omega)
  apply Nat.eq_of_testBit_eq
  intro j
  rw [Nat.testBit_xor, Nat.testBit_mul_pow_two_add c hlt j, Nat.testBit_mul_pow_two,
    Nat.testBit_two_pow]
  by_cases h1 : j < k + 1
  · have h2 : ¬ (j ≥ k + 1) := by omega
    simp [h1, h2]
  · have h2 : j ≥ k + 1 := by omega
    have h3 : k ≠ j := by omega
    simp [h1, h2, h3]

/-- At or above `base` and for an order below 31 the signed computation of
`buddy_of` is the XOR of the word offset with `2 ^ k`. -/
theorem buddy_of_offset (s : State) (block k : Nat) (hb : s.base ≤ block) (hk : k < 31) :
    buddy_of s block k = s.base + ((block - s.base) ^^^ 2 ^ k) := by
  unfold buddy_of
  rw [Nat.one_shiftLeft, toInt32_small (2 ^ k) (Nat.pow_lt_pow_right (by decide) hk),
    ← Int.ofNat_sub hb]
  show ((s.base : Int) + (((block - s.base) ^^^ 2 ^ k : Nat) : Int)).toNat = _
  rw [← Int.ofNat_add, Int.toNat_ofNat]

/-- Below `base` the offset is negative: the buddy of the order-9 block 512 words
below `base0` is the block 1024 words below `base0`. -/
theorem buddy_of_below_base : buddy_of state0 (base0 - 512) 9 = base0 - 1024 := by
  decide

theorem buddy_of_aligned (s : State) (block k : Nat) (hb : s.base ≤ block) (hk : k < 31)
    (h : 2 ^ (k + 1) ∣ (block - s.base)) : buddy_of s block k = block + 2 ^ k := by
  rw [buddy_of_offset s block k hb hk, xor_two_pow_of_dvd _ _ h]
  omega

end Buddy

namespace Buddy

/-! ## The search loop -/

theorem scan_cases :
    ∀ (n : Nat) (s : State) (ord : Nat), 9 ≤ ord → ord + n ≤ 31 →
      ((∀ k, ord ≤ k → k < ord + n → s.list (k - 9) = 0) ∧
          scanLoop n s ord = .ok (0, ord + n, s)) ∨
      (∃ t, ord ≤ t ∧ t < ord + n ∧ (∀ k, ord ≤ k → k < t → s.list (k - 9) = 0) ∧
          s.list (t - 9) ≠ 0 ∧
          scanLoop n s ord = .ok (s.list (t - 9), t,
            { s with list := upd (upd s.list (t - 9) (s.mem (s.list (t - 9)))) (t - 9) 0 })) := by
  intro n
  induction n with
  | zero =>
    intro s ord _ _
    left
    refine ⟨fun k h1 h2 => by omega, ?_⟩
    simp [scanLoop]
  | succ n ih =>
    intro s ord h9 hb
    unfold scanLoop
    rw [show min_order = 9 from rfl, remove_ok s (ord - 9) (by omega)]
    by_cases hz : s.list (ord - 9) = 0
    · simp only [hz, if_true, ne_eq, not_true_eq_false, if_false]
      rcases ih s (ord + 1) (by omega) (by omega) with ⟨hall, hrun⟩ | ⟨t, h1, h2, h3, h4, hrun⟩
      · left
        refine ⟨?_, ?_⟩
        · intro k hk1 hk2
          by_cases hk : k = ord
          · rw [hk]; exact hz
          · exact hall k (by omega) (by omega)
        · rw [hrun]
          have : ord + 1 + n = ord + (n + 1) := by omega
          rw [this]
      · right
        refine ⟨t, by omega, by omega, ?_, h4, hrun⟩
        intro k hk1 hk2
        by_cases hk : k = ord
        · rw [hk]; exact hz
        · exact h3 k (by omega) hk2
    · right
      refine ⟨ord, le_refl _, by omega, fun k h1 h2 => by omega, hz, ?_⟩
      simp [hz]

/-! ## The split loop -/

theorem split_spec (block order : Nat) :
    ∀ (n : Nat) (s : State), s.base ≤ block → 2 ^ (order + n) ∣ (block - s.base) →
      9 ≤ order → order + n ≤ 31 →
      ∃ s2, splitLoop block order n s (order + n) = .ok (s2, order - 1) ∧
        s2.max_order = s.max_order ∧ s2.base = s.base ∧
        (∀ i, s2.list i =
          if order ≤ i + 9 ∧ i + 9 < order + n then block + 2 ^ (i + 9) else s.list i) ∧
        (∀ k, order ≤ k → k < order + n → s2.mem (block + 2 ^ k) = s.list (k - 9)) ∧
        (∀ a, a < block + 2 ^ order ∨ block + 2 ^ (order + n) ≤ a → s2.mem a = s.mem a) := by
  intro n
  induction n with
  | zero =>
    intro s _ _ _ _
    have hfin : (order + 2 ^ 64 - 1) % 2 ^ 64 = order - 1 := by omega
    refine ⟨s, ?_, rfl, rfl, ?_, ?_, fun a _ => rfl⟩
    · unfold splitLoop
      rw [if_neg (by omega), Nat.add_zero, hfin]
    · intro i
      rw [if_neg]
      omega
    · intro k h1 h2
      omega
  | succ n ih =>
    intro s hb hd h9 hn
    have hd1 : 2 ^ (order + n + 1) ∣ (block - s.base) := hd
    have hd2 : 2 ^ (order + n) ∣ (block - s.base) :=
      Dvd.dvd.trans (pow_dvd_pow 2 (by omega)) hd
    have hpos : 0 < 2 ^ (order + n) := Nat.two_pow_pos _
    have hbig : 512 ≤ 2 ^ (order + n) := by
      have : 2 ^ 9 ≤ 2 ^ (order + n) := Nat.pow_le_pow_right (by decide) (by omega)
      simpa using this
    have hdouble : 2 ^ (order + (n + 1)) = 2 ^ (order + n) + 2 ^ (order + n) := by
      rw [show order + (n + 1) = (order + n) + 1 from rfl, pow_succ]
      omega
    have hmono : 2 ^ order ≤ 2 ^ (order + n) := Nat.pow_le_pow_right (by decide) (by omega)
    unfold splitLoop
    rw [if_pos (by omega), show order + (n + 1) - 1 = order + n by omega,
      show min_order = 9 from rfl, buddy_of_aligned s block (order + n) hb (by omega) hd1,
      add_ok s _ (order + n - 9) (by omega)]
    have hne : block + 2 ^ (order + n) ≠ 0 := by omega
    simp only [hne, ne_eq, not_false_eq_true, if_true]
    obtain ⟨s2, hrun, hmax, hbase, hlist, hmem, hout⟩ :=
      ih { s with
            mem := upd (memset s.mem (block + 2 ^ (order + n)) 0 4096) (block + 2 ^ (order + n))
              (s.list (order + n - 9)),
            list := upd s.list (order + n - 9) (block + 2 ^ (order + n)) } hb hd2 h9 (by omega)
    dsimp only at hmax hbase hlist hmem hout
    refine ⟨s2, hrun, hmax, hbase, ?_, ?_, ?_⟩
    · intro i
      rw [hlist i]
      by_cases hi : order ≤ i + 9 ∧ i + 9 < order + n
      · rw [if_pos hi, if_pos (by omega)]
      · rw [if_neg hi]
        by_cases hi2 : i = order + n - 9
        · rw [if_pos (by omega), hi2, upd_same]
          have : order + n - 9 + 9 = order + n := by omega
          rw [this]
        · rw [if_neg (by omega)]
          exact upd_other _ _ _ _ hi2
    · intro k hk1 hk2
      by_cases hk : k < order + n
      · rw [hmem k hk1 hk]
        exact upd_other _ _ _ _ (by omega)
      · have hk3 : k = order + n := by omega
        rw [hk3, hout _ (Or.inr (le_refl _))]
        exact upd_same _ _ _
    · intro a ha
      have ha2 : a < block + 2 ^ order ∨ block + 2 ^ (order + n) ≤ a := by omega
      rw [hout a ha2]
      have ha3 : a ≠ block + 2 ^ (order + n) := by omega
      rw [upd_other _ _ _ _ ha3]
      apply memset_out
      omega

end Buddy

namespace Buddy

/-! ## Results of `alloc` -/

theorem log2Loop_lt (size : Int) :
    ∀ (fuel result l : Nat), log2Loop size fuel result = .ok l → l < result + fuel := by
  intro fuel
  induction fuel with
  | zero =>
    intro result l h
    simp [log2Loop] at h
  | succ fuel ih =>
    intro result l h
    unfold log2Loop at h
    by_cases hlt : (2 : Int) ^ result < size
    · rw [if_pos hlt] at h
      have := ih (result + 1) l h
      omega
    · rw [if_neg hlt] at h
      cases h
      omega

theorem log2_le (size : Int) (l : Nat) (h : log2 size = .ok l) : l ≤ 30 := by
  have := log2Loop_lt size 31 0 l h
  omega

theorem scan_ord_le :
    ∀ (n : Nat) (s : State) (ord b t : Nat) (s1 : State),
      scanLoop n s ord = .ok (b, t, s1) → ord ≤ t := by
  intro n
  induction n with
  | zero =>
    intro s ord b t s1 h
    simp only [scanLoop] at h
    cases h
    exact le_refl _
  | succ n ih =>
    intro s ord b t s1 h
    unfold scanLoop at h
    split at h
    · cases h
    · rename_i block s2 _
      by_cases hb : block ≠ 0
      · rw [if_pos hb] at h
        cases h
        exact le_refl _
      · rw [if_neg hb] at h
        have := ih s2 (ord + 1) b t s1 h
        omega

/-- The split loop leaves `ord = order - 1`, however many blocks it pushed. -/
theorem splitLoop_final (block order : Nat) (h1 : 1 ≤ order) (h2 : order < 2 ^ 64) :
    ∀ (n : Nat) (s : State) (ord : Nat) (s2 : State) (ord2 : Nat), order ≤ ord →
      splitLoop block order n s ord = .ok (s2, ord2) → ord2 = order - 1 := by
  have hfin : (order + 2 ^ 64 - 1) % 2 ^ 64 = order - 1 := by omega
  intro n
  induction n with
  | zero =>
    intro s ord s2 ord2 hle h
    unfold splitLoop at h
    by_cases hgt : ord > order
    · rw [if_pos hgt] at h
      cases h
    · rw [if_neg hgt] at h
      have : ord = order := by omega
      subst this
      cases h
      exact hfin
  | succ n ih =>
    intro s ord s2 ord2 hle h
    unfold splitLoop at h
    by_cases hgt : ord > order
    · rw [if_pos hgt] at h
      split at h
      · cases h
      · rename_i s1 _
        exact ih s1 (ord - 1) s2 ord2 (by omega) h
    · rw [if_neg hgt] at h
      have : ord = order := by omega
      subst this
      cases h
      exact hfin

/-- A call of `alloc` that returns a block ends in `allocFinish` at the
requested order, with `ord = order - 1` left by the split loop. -/
theorem alloc_served (s : State) (size : Nat) (fill : FillMode)
    (r : BuddyAllocationResult) (s' : State) (hr : alloc s size fill = .ok (r, s'))
    (hp : r.ptr ≠ 0) :
    ∃ l s2, log2 (toInt32 (size % 2 ^ 64 / 8)) = .ok l ∧ l ≤ 30 ∧
      allocFinish s2 r.ptr (max min_order l) (max min_order l - 1) fill = .ok (r, s') := by
  unfold alloc at hr
  split at hr
  · cases hr
  · rename_i l hl
    have hl30 : l ≤ 30 := log2_le _ l hl
    have h9 : 9 ≤ max min_order l := le_max_left _ _
    have h30 : max min_order l ≤ 30 := max_le (by decide) hl30
    simp only [sanity_checks, Bool.false_and, Bool.false_eq_true, if_false] at hr
    split at hr
    · cases hr
    · rename_i block ord s1 hscan
      by_cases hb : block = 0
      · rw [if_pos hb] at hr
        cases hr
        exact absurd rfl hp
      · rw [if_neg hb] at hr
        split at hr
        · cases hr
        · rename_i s2 ord2 hsplit
          have hle := scan_ord_le _ _ _ _ _ _ hscan
          have hfin := splitLoop_final block (max min_order l) (by omega) (by omega) _ _ _ _ _
            hle hsplit
          rw [hfin] at hr
          have hptr := allocFinish_ptr _ _ _ _ _ _ _ hr
          rw [hptr]
          exact ⟨l, s2, hl, hl30, hr⟩

theorem allocFinish_order (s s' : State) (block order ord : Nat) (fill : FillMode)
    (r : BuddyAllocationResult) (h : allocFinish s block order ord fill = .ok (r, s')) :
    r.order = toInt32 ((ord + 1) % 2 ^ 64) := by
  unfold allocFinish at h
  by_cases h1 : order + 3 ≥ 32
  · rw [if_pos h1] at h
    cases h
  · rw [if_neg h1] at h
    dsimp only at h
    by_cases hf : fill ≠ FillMode.NONE
    · rw [if_pos hf] at h
      by_cases hc : toInt32 (2 ^ (order + 3)) < 0
      · rw [if_pos hc] at h
        cases h
      · rw [if_neg hc] at h
        cases h
        rfl
    · rw [if_neg hf] at h
      cases h
      rfl

/-- With a fill, `allocFinish` returns only for a requested order of at most 27. -/
theorem allocFinish_fill_bound (s s' : State) (block order ord : Nat) (fill : FillMode)
    (r : BuddyAllocationResult) (hf : fill ≠ FillMode.NONE)
    (h : allocFinish s block order ord fill = .ok (r, s')) : order ≤ 27 := by
  unfold allocFinish at h
  by_cases h1 : order + 3 ≥ 32
  · rw [if_pos h1] at h
    cases h
  · rw [if_neg h1] at h
    dsimp only at h
    rw [if_pos hf] at h
    by_cases hc : toInt32 (2 ^ (order + 3)) < 0
    · rw [if_pos hc] at h
      cases h
    · by_contra hgt
      have h28 : order = 28 := by omega
      subst h28
      exact hc (by decide)

theorem two_pow_add_three_div (k : Nat) : 2 ^ (k + 3) / 8 = 2 ^ k := by
  rw [pow_add]
  norm_num

/-- Claim C4 as stated fails.  After `init(base0, 31)` (`max_order = 28`),
`alloc(2 ^ 31, NONE)`, with `2 ^ 31 / 8 ≤ 2 ^ 30`, returns the block `base0` at the
requested order 28, but `1 << 31` is `INT_MIN` and the returned page count is
`-524288`, not `2 ^ 31 / 4096`. -/
theorem C4_counterexample :
    init heap0 base0 31 = .ok state31 ∧ 2 ^ 31 / 8 ≤ 2 ^ 30 ∧
    ∃ r s', alloc state31 (2 ^ 31) FillMode.NONE = .ok (r, s') ∧ r.ptr ≠ 0 ∧
      r.order = 28 ∧ r.npages = -524288 ∧
      ¬ (r.order = ((max min_order (Nat.clog 2 (2 ^ 31 / 8)) : Nat) : Int) ∧
          r.npages = ((2 ^ (r.order.toNat + 3) / 4096 : Nat) : Int)) :=
  ⟨rfl, by decide, _, _, rfl, by decide, rfl, rfl, fun h => absurd h.2 (by decide)⟩

/-- Claim C4, amended.  Whenever `alloc(size, fill)` with `size / 8 ≤ 2 ^ 30`
returns a non-null block, the returned order is the requested order
`max(min_order, ceil_log2(size / 8))`, whatever the order at which the block was
found and however many splits were made; and when `size / 8 ≤ 2 ^ 27`, so that
the requested order is at most 27, the returned page count is
`2 ^ (order + 3) / 4096`. -/
theorem C4_alloc_result (s : State) (size : Nat) (fill : FillMode)
    (r : BuddyAllocationResult) (s' : State) (hsize : size / 8 ≤ 2 ^ 30)
    (hr : alloc s size fill = .ok (r, s')) (hp : r.ptr ≠ 0) :
    r.order = ((max min_order (Nat.clog 2 (size / 8)) : Nat) : Int) ∧
      (size / 8 ≤ 2 ^ 27 →
        r.npages = ((2 ^ (r.order.toNat + 3) / 4096 : Nat) : Int)) := by
  obtain ⟨l, s2, hl, hl30, hfin⟩ := alloc_served s size fill r s' hr hp
  rw [alloc_order size hsize] at hl
  cases hl
  have h9 : 9 ≤ max min_order (Nat.clog 2 (size / 8)) := le_max_left _ _
  have h30 : max min_order (Nat.clog 2 (size / 8)) ≤ 30 := max_le (by decide) hl30
  have h27 : size / 8 ≤ 2 ^ 27 → max min_order (Nat.clog 2 (size / 8)) ≤ 27 :=
    fun hs => max_le (by decide) ((Nat.le_pow_iff_clog_le (by decide)).1 hs)
  generalize max min_order (Nat.clog 2 (size / 8)) = q at *
  have hord : r.order = ((q : Nat) : Int) := by
    rw [allocFinish_order _ _ _ _ _ _ _ hfin, Nat.sub_add_cancel (by omega),
      Nat.mod_eq_of_lt (by omega), toInt32_small q (by omega)]
  refine ⟨hord, ?_⟩
  intro hsmall
  rw [allocFinish_small s2 _ q fill h9 (h27 hsmall)] at hfin
  have hn : ((2 ^ (q + 3) / 4096 : Nat) : Int) = r.npages :=
    congrArg (fun p => p.1.npages) (Except.ok.inj hfin)
  rw [← hn, hord, Int.toNat_ofNat]

/-- Witness of C4: after `init(base0, 30)`, `alloc(8192)` succeeds with order 10
and 2 pages, and `alloc(4096)` with order 9 and 1 page. -/
theorem C4_alloc_result_witness :
    init heap0 base0 30 = .ok state0 ∧
    ∃ r s1 r' s1', alloc state0 8192 FillMode.ZERO = .ok (r, s1) ∧ r.ptr ≠ 0 ∧
      alloc state0 4096 FillMode.NONE = .ok (r', s1') ∧ r'.ptr ≠ 0 ∧
      (r.order = 10 ∧ r.npages = 2) ∧ (r'.order = 9 ∧ r'.npages = 1) ∧
      (r.order = ((max min_order (Nat.clog 2 (8192 / 8)) : Nat) : Int) ∧
        (8192 / 8 ≤ 2 ^ 27 →
          r.npages = ((2 ^ (r.order.toNat + 3) / 4096 : Nat) : Int))) :=
  ⟨rfl, _, _, _, _, rfl, by decide, rfl, by decide, ⟨rfl, rfl⟩, ⟨rfl, rfl⟩,
    C4_alloc_result state0 8192 FillMode.ZERO _ _ (by decide) rfl (by decide)⟩

/-- Claim C7.  After a successful `alloc(size, ZERO)` returning `(ptr, order,
npages)`, every word of `[ptr, ptr + 2 ^ order)`, that is every byte of the
`2 ^ (order + 3)` bytes of the returned block, reads as zero. -/
theorem C7_zero_fill (s : State) (size : Nat) (r : BuddyAllocationResult) (s' : State)
    (hr : alloc s size FillMode.ZERO = .ok (r, s')) (hp : r.ptr ≠ 0) :
    ∀ a, r.ptr ≤ a → a < r.ptr + 2 ^ r.order.toNat → s'.mem a = 0 := by
  obtain ⟨l, s2, _, _, hfin⟩ := alloc_served s size FillMode.ZERO r s' hr hp
  have h9 : 9 ≤ max min_order l := le_max_left _ _
  have h27 := allocFinish_fill_bound _ _ _ _ _ _ _ (by decide) hfin
  rw [allocFinish_small s2 _ _ FillMode.ZERO h9 h27] at hfin
  have ho : ((max min_order l : Nat) : Int) = r.order :=
    congrArg (fun p => p.1.order) (Except.ok.inj hfin)
  have hs := congrArg (fun p => p.2) (Except.ok.inj hfin)
  dsimp only at hs
  intro a h1 h2
  rw [← ho, Int.toNat_ofNat] at h2
  rw [← hs, if_pos (by decide)]
  show memset s2.mem _ FillMode.ZERO.val (2 ^ (max min_order l + 3)) a = 0
  apply memset_in
  · exact h1
  · rw [two_pow_add_three_div]
    exact h2

/-- Witness of C7: the first `alloc(4096, ZERO)` after `init(base0, 30)` succeeds
on a heap full of junk, and its 512 words read as zero. -/
theorem C7_zero_fill_witness :
    init heap0 base0 30 = .ok state0 ∧ heap0 (base0 + 1) ≠ 0 ∧
    ∃ r s1, alloc state0 4096 FillMode.ZERO = .ok (r, s1) ∧ r.ptr ≠ 0 ∧ r.order = 9 ∧
      ∀ a, r.ptr ≤ a → a < r.ptr + 2 ^ r.order.toNat → s1.mem a = 0 :=
  ⟨rfl, by decide, _, _, rfl, by decide, rfl,
    C7_zero_fill state0 4096 _ _ rfl (by decide)⟩

end Buddy


namespace Buddy

/-! ## Taking a block and splitting it -/

theorem scan_found :
    ∀ (n : Nat) (s : State) (ord t : Nat), 9 ≤ ord → ord ≤ t → t < ord + n → t ≤ 30 →
      (∀ k, ord ≤ k → k < t → s.list (k - 9) = 0) → s.list (t - 9) ≠ 0 →
      scanLoop n s ord = .ok (s.list (t - 9), t,
        { s with list := upd (upd s.list (t - 9) (s.mem (s.list (t - 9)))) (t - 9) 0 }) := by
  intro n
  induction n with
  | zero => intro s ord t _ h1 h2; omega
  | succ n ih =>
    intro s ord t h9 h1 h2 h30 hempty hne
    unfold scanLoop
    rw [show min_order = 9 from rfl, remove_ok s (ord - 9) (by omega)]
    by_cases ht : t = ord
    · subst ht
      simp [hne]
    · have hz : s.list (ord - 9) = 0 := hempty ord (le_refl _) (by omega)
      simp only [hz, if_true, ne_eq, not_true_eq_false, if_false]
      exact ih s (ord + 1) t (by omega) (by omega) (by omega) h30
        (fun k hk1 hk2 => hempty k (by omega) hk2) hne

theorem init_ok (m : Mem) (base T : Nat) (hb : base ≠ 0) (h1 : 12 ≤ T) (h2 : T ≤ 30) :
    init m base (T : Int) =
      .ok { max_order := T - 3, list := upd (fun _ => 0) (T - 12) base, base := base,
            mem := upd (memset m base 0 4096) base 0 } := by
  have hmax : (((T : Int) - 3) % 2 ^ 64).toNat = T - 3 := by omega
  have hidx : (T - 3 + 2 ^ 64 - min_order) % 2 ^ 64 = T - 12 := by
    unfold min_order
    omega
  unfold init
  simp only [hmax, hidx, Freelist.init]
  rw [add_ok _ _ _ (by omega)]
  simp [hb]

theorem alloc_split (s : State) (size : Nat) (fill : FillMode) (b t : Nat)
    (hsize : size / 8 ≤ 2 ^ 30)
    (hrt : max min_order (Nat.clog 2 (size / 8)) ≤ t) (ht : t ≤ s.max_order) (ht30 : t ≤ 30)
    (hr27 : max min_order (Nat.clog 2 (size / 8)) ≤ 27)
    (hempty : ∀ k, max min_order (Nat.clog 2 (size / 8)) ≤ k → k < t →
      s.list (k - min_order) = 0)
    (hhead : s.list (t - min_order) = b) (hb : b ≠ 0) (hbase : s.base ≤ b)
    (hal : 2 ^ t ∣ (b - s.base)) :
    ∃ res s', alloc s size fill = .ok (res, s') ∧ res.ptr = b ∧
      res.order = ((max min_order (Nat.clog 2 (size / 8)) : Nat) : Int) ∧
      (∀ k, max min_order (Nat.clog 2 (size / 8)) ≤ k → k < t →
        isChain s'.mem (s'.list (k - min_order)) [b + 2 ^ k]) ∧
      s'.list (t - min_order) = 0 ∧
      (∀ i, i + min_order < max min_order (Nat.clog 2 (size / 8)) ∨ t < i + min_order →
        s'.list i = s.list i) ∧
      s'.max_order = s.max_order ∧ s'.base = s.base := by
  rw [alloc_unfold s size fill hsize]
  have h9 : 9 ≤ max min_order (Nat.clog 2 (size / 8)) := le_max_left _ _
  generalize max min_order (Nat.clog 2 (size / 8)) = r at *
  rw [show min_order = 9 from rfl] at hempty hhead
  simp only [show min_order = 9 from rfl]
  have hne : s.list (t - 9) ≠ 0 := by rw [hhead]; exact hb
  rw [scan_found (s.max_order + 1 - r) s r t h9 hrt (by omega) ht30 hempty hne, hhead]
  simp only [hb, if_false]
  obtain ⟨s2, hrun, hmax, hbs, hlist, hmem, _⟩ :=
    split_spec b r (t - r)
      { s with list := upd (upd s.list (t - 9) (s.mem b)) (t - 9) 0 } hbase
      (by rw [show r + (t - r) = t by omega]; exact hal) h9 (by omega)
  dsimp only at hmax hbs hlist hmem
  rw [show r + (t - r) = t by omega] at hrun
  rw [hrun]
  show ∃ res s', allocFinish s2 b r (r - 1) fill = .ok (res, s') ∧ _
  rw [allocFinish_small s2 b r fill h9 hr27]
  have hmono : ∀ k, r ≤ k → 2 ^ r ≤ 2 ^ k := fun k hk => Nat.pow_le_pow_right (by decide) hk
  refine ⟨_, _, rfl, rfl, rfl, ?_, ?_, ?_, ?_, ?_⟩
  · intro k hk1 hk2
    have hl : s2.list (k - 9) = b + 2 ^ k := by
      rw [hlist (k - 9), if_pos (by omega), show k - 9 + 9 = k by omega]
    have hm : s2.mem (b + 2 ^ k) = 0 := by
      rw [hmem k hk1 (by omega), upd_other _ _ _ _ (by omega), upd_other _ _ _ _ (by omega)]
      exact hempty k hk1 hk2
    have hpos : 0 < 2 ^ k := Nat.two_pow_pos _
    have hge := hmono k hk1
    by_cases hf : fill = FillMode.NONE
    · simp only [hf, ne_eq, not_true_eq_false, if_false, isChain]
      exact ⟨hl, by omega, hm⟩
    · simp only [hf, ne_eq, not_false_eq_true, if_true, isChain]
      refine ⟨hl, by omega, ?_⟩
      rw [memset_out _ _ _ _ _ (Or.inr (by rw [two_pow_add_three_div]; omega))]
      exact hm
  · have hl : s2.list (t - 9) = 0 := by
      rw [hlist (t - 9), if_neg (by omega)]
      exact upd_same _ _ _
    by_cases hf : fill = FillMode.NONE
    · simp only [hf, ne_eq, not_true_eq_false, if_false]
      exact hl
    · simp only [hf, ne_eq, not_false_eq_true, if_true]
      exact hl
  · intro i hi
    have hl : s2.list i = s.list i := by
      rw [hlist i, if_neg (by omega), upd_other _ _ _ _ (by omega),
        upd_other _ _ _ _ (by omega)]
    by_cases hf : fill = FillMode.NONE
    · simp only [hf, ne_eq, not_true_eq_false, if_false]
      exact hl
    · simp only [hf, ne_eq, not_false_eq_true, if_true]
      exact hl
  · by_cases hf : fill = FillMode.NONE
    · simp only [hf, ne_eq, not_true_eq_false, if_false]
      exact hmax
    · simp only [hf, ne_eq, not_false_eq_true, if_true]
      exact hmax
  · by_cases hf : fill = FillMode.NONE
    · simp only [hf, ne_eq, not_true_eq_false, if_false]
      exact hbs
    · simp only [hf, ne_eq, not_false_eq_true, if_true]
      exact hbs

end Buddy

namespace Buddy

theorem order_of_4096 : max min_order (Nat.clog 2 (4096 / 8)) = 9 := by
  rw [show 4096 / 8 = 2 ^ 9 by norm_num, Nat.clog_pow 2 9 (by decide)]
  decide

/-- Claim C3.  First part: after `init(base, T)` with `12 ≤ T ≤ 30` on a non-null
base, `max_order = T - 3`, the first `alloc(4096, ZERO)` returns `base`, and
afterwards every slot `k - min_order` with `min_order ≤ k < max_order` holds
exactly one block, the one `2 ^ k` words (`2 ^ (k + 3)` bytes) above `base`,
while the top slot is empty.  Second part: whenever `alloc` finds the slots of
the orders `r ≤ k < t` empty (`r` the requested order) and takes the block `b`
at the head of the slot of order `t`, `b` a block of that order (its word
offset from `base` a multiple of `2 ^ t`), it returns `b`, leaves exactly the
upper buddy `b + 2 ^ k` in the slot of each order `r ≤ k < t`, empties the slot
of order `t` and changes no other slot.  Here `t ≤ 30` keeps the slot index
inside the bank and `r ≤ 27` keeps `1 << (r + 3)` inside an `int`. -/
theorem C3_alloc_splits :
    (∀ (m : Mem) (base T : Nat), base ≠ 0 → 12 ≤ T → T ≤ 30 →
      ∃ s0 r s1, init m base (T : Int) = .ok s0 ∧ s0.max_order = T - 3 ∧ s0.base = base ∧
        alloc s0 4096 FillMode.ZERO = .ok (r, s1) ∧ r.ptr = base ∧
        (∀ k, min_order ≤ k → k < s0.max_order →
          isChain s1.mem (s1.list (k - min_order)) [base + 2 ^ k]) ∧
        s1.list (s0.max_order - min_order) = 0) ∧
    (∀ (s : State) (size : Nat) (fill : FillMode) (b t : Nat), size / 8 ≤ 2 ^ 30 →
      max min_order (Nat.clog 2 (size / 8)) ≤ t → t ≤ s.max_order → t ≤ 30 →
      max min_order (Nat.clog 2 (size / 8)) ≤ 27 →
      (∀ k, max min_order (Nat.clog 2 (size / 8)) ≤ k → k < t → s.list (k - min_order) = 0) →
      s.list (t - min_order) = b → b ≠ 0 → s.base ≤ b → 2 ^ t ∣ (b - s.base) →
      ∃ res s', alloc s size fill = .ok (res, s') ∧ res.ptr = b ∧
        (∀ k, max min_order (Nat.clog 2 (size / 8)) ≤ k → k < t →
          isChain s'.mem (s'.list (k - min_order)) [b + 2 ^ k]) ∧
        s'.list (t - min_order) = 0 ∧
        (∀ i, i + min_order < max min_order (Nat.clog 2 (size / 8)) ∨ t < i + min_order →
          s'.list i = s.list i)) := by
  constructor
  · intro m base T hb h1 h2
    have hinit := init_ok m base T hb h1 h2
    obtain ⟨res, s', hrun, hptr, _, hchain, htop, _, _, _⟩ :=
      alloc_split
        { max_order := T - 3, list := upd (fun _ => 0) (T - 12) base, base := base,
          mem := upd (memset m base 0 4096) base 0 }
        4096 FillMode.ZERO base (T - 3) (by norm_num)
        (by rw [order_of_4096]; omega) (le_refl _) (by omega)
        (by rw [order_of_4096]; omega)
        (by
          intro k hk1 hk2
          rw [order_of_4096] at hk1
          show upd (fun _ => 0) (T - 12) base (k - min_order) = 0
          rw [upd_other _ _ _ _ (by unfold min_order; omega)])
        (by
          show upd (fun _ => 0) (T - 12) base (T - 3 - min_order) = base
          rw [show T - 3 - min_order = T - 12 by unfold min_order; omega]
          exact upd_same _ _ _)
        hb (le_refl _) (by simp)
    refine ⟨_, res, s', hinit, rfl, rfl, hrun, hptr, ?_, htop⟩
    intro k hk1 hk2
    exact hchain k (by rw [order_of_4096]; unfold min_order at hk1; exact hk1) hk2
  · intro s size fill b t hsize hrt ht ht30 hr27 hempty hhead hb hbase hal
    obtain ⟨res, s', hrun, hptr, _, hchain, htop, hother, _, _⟩ :=
      alloc_split s size fill b t hsize hrt ht ht30 hr27 hempty hhead hb hbase hal
    exact ⟨res, s', hrun, hptr, hchain, htop, hother⟩

/-- Witness of C3: scenario S1 on the region at `base0` with `T = 30`, once
through the first part and once through the second part (`r = 9`, `t = 27`). -/
theorem C3_alloc_splits_witness :
    (base0 ≠ 0 ∧ 12 ≤ 30 ∧ 30 ≤ 30 ∧
      ∃ s0 r s1, init heap0 base0 ((30 : Nat) : Int) = .ok s0 ∧ s0.max_order = 30 - 3 ∧
        s0.base = base0 ∧
        alloc s0 4096 FillMode.ZERO = .ok (r, s1) ∧ r.ptr = base0 ∧
        (∀ k, min_order ≤ k → k < s0.max_order →
          isChain s1.mem (s1.list (k - min_order)) [base0 + 2 ^ k]) ∧
        s1.list (s0.max_order - min_order) = 0) ∧
    (state0.list (27 - min_order) = base0 ∧ 2 ^ 27 ∣ (base0 - state0.base) ∧
      ∃ res s', alloc state0 4096 FillMode.NONE = .ok (res, s') ∧ res.ptr = base0 ∧
        (∀ k, max min_order (Nat.clog 2 (4096 / 8)) ≤ k → k < 27 →
          isChain s'.mem (s'.list (k - min_order)) [base0 + 2 ^ k]) ∧
        s'.list (27 - min_order) = 0 ∧
        (∀ i, i + min_order < max min_order (Nat.clog 2 (4096 / 8)) ∨ 27 < i + min_order →
          s'.list i = state0.list i)) :=
  ⟨⟨by decide, by decide, by decide,
      C3_alloc_splits.1 heap0 base0 30 (by decide) (by decide) (by decide)⟩,
    ⟨rfl, by decide,
      C3_alloc_splits.2 state0 4096 FillMode.NONE base0 27 (by decide)
        (by rw [order_of_4096]; decide) (by decide) (by decide)
        (by rw [order_of_4096]; decide)
        (by
          intro k hk1 hk2
          rw [order_of_4096] at hk1
          show upd (fun _ => 0) 18 base0 (k - min_order) = 0
          rw [upd_other _ _ _ _ (by unfold min_order; omega)])
        rfl (by decide) (by decide) (by decide)⟩⟩

end Buddy

namespace Buddy

/-! ## Failure of `alloc` -/

theorem order_of_two_pow_34 : max min_order (Nat.clog 2 (2 ^ 34 / 8)) = 31 := by
  rw [show 2 ^ 34 / 8 = 2 ^ 31 by norm_num, Nat.clog_pow 2 31 (by decide)]
  decide

/-- Claim C5 as stated fails.  After `init(base0, 30)` the call `alloc(2 ^ 34)`
returns the non-null block `base0` although every slot of the orders from
`max(min_order, ceil_log2(2 ^ 34 / 8)) = 31` up to `max_order = 27` is empty (there
is none): `2 ^ 34 >> 3 = 2 ^ 31` becomes a negative `int`, `log2` answers `0`, and
the request is served at order 9. -/
theorem C5_counterexample :
    init heap0 base0 30 = .ok state0 ∧
    ∃ r s1, alloc state0 (2 ^ 34) FillMode.ZERO = .ok (r, s1) ∧ r.order = 9 ∧
      ¬ (r.ptr = 0 ↔
          ∀ k, max min_order (Nat.clog 2 (2 ^ 34 / 8)) ≤ k → k ≤ state0.max_order →
            state0.list (k - min_order) = 0) := by
  refine ⟨rfl, _, _, rfl, rfl, ?_⟩
  intro h
  have hall : ∀ k, max min_order (Nat.clog 2 (2 ^ 34 / 8)) ≤ k → k ≤ state0.max_order →
      state0.list (k - min_order) = 0 := by
    intro k hk1 hk2
    rw [order_of_two_pow_34] at hk1
    have : state0.max_order = 27 := rfl
    omega
  exact absurd (h.2 hall) (by decide)

/-- Claim C5, amended.  In every state with `max_order ≤ largest_allowed_order`
and for every size with `size / 8 ≤ 2 ^ 30`, `alloc(size)` returns a null block
if and only if every slot of the orders from the requested order
`max(min_order, ceil_log2(size / 8))` up to `max_order` is empty (also when the
requested order exceeds `max_order`); and whenever it returns null, the state
(freelist bank and memory) is unchanged. -/
theorem C5_alloc_null_iff (s : State) (size : Nat) (fill : FillMode)
    (hs : s.max_order ≤ largest_allowed_order) (hsize : size / 8 ≤ 2 ^ 30) :
    ((∃ r s', alloc s size fill = .ok (r, s') ∧ r.ptr = 0) ↔
        ∀ k, max min_order (Nat.clog 2 (size / 8)) ≤ k → k ≤ s.max_order →
          s.list (k - min_order) = 0) ∧
      (∀ r s', alloc s size fill = .ok (r, s') → r.ptr = 0 → s' = s) := by
  rw [alloc_unfold s size fill hsize]
  have h9 : 9 ≤ max min_order (Nat.clog 2 (size / 8)) := le_max_left _ _
  have h30 : max min_order (Nat.clog 2 (size / 8)) ≤ 30 := by
    have : Nat.clog 2 (size / 8) ≤ 30 := (Nat.le_pow_iff_clog_le (by decide)).1 hsize
    exact max_le (by decide) this
  generalize max min_order (Nat.clog 2 (size / 8)) = r at *
  rw [show largest_allowed_order = 30 from rfl] at hs
  simp only [show min_order = 9 from rfl]
  rcases scan_cases (s.max_order + 1 - r) s r h9 (by omega) with
    ⟨hall, hrun⟩ | ⟨t, h1, h2, h3, h4, hrun⟩
  · rw [hrun]
    simp only [if_true]
    refine ⟨⟨fun _ k hk1 hk2 => hall k hk1 (by omega), fun _ => ⟨_, _, rfl, rfl⟩⟩, ?_⟩
    intro r' s' h _
    cases h
    rfl
  · rw [hrun]
    simp only [h4, if_false]
    have hno : ∀ (x : Except Fault (State × Nat)) (r' : BuddyAllocationResult) (s' : State),
        (match x with
          | .error e => .error e
          | .ok (s2, ord2) => allocFinish s2 (s.list (t - 9)) r ord2 fill :
            Except Fault (BuddyAllocationResult × State)) = .ok (r', s') →
        r'.ptr ≠ 0 := by
      intro x r' s' h
      split at h
      · cases h
      · rw [allocFinish_ptr _ _ _ _ _ _ _ h]
        exact h4
    refine ⟨⟨?_, ?_⟩, ?_⟩
    · rintro ⟨r', s', h, hp⟩
      exact absurd hp (hno _ r' s' h)
    · intro hall
      exact absurd (hall t h1 (by omega)) h4
    · intro r' s' h hp
      exact absurd hp (hno _ r' s' h)

/-- Witness of C5 (amended): on the state after `init(base0, 30)`, whose top slot
holds `base0`, `alloc(2 ^ 31)` asks for order 28 above `max_order = 27`, finds every
slot of the (empty) range empty and returns null without changing the state. -/
theorem C5_alloc_null_iff_witness :
    state0.max_order ≤ largest_allowed_order ∧ 2 ^ 31 / 8 ≤ 2 ^ 30 ∧
    (((∃ r s', alloc state0 (2 ^ 31) FillMode.ZERO = .ok (r, s') ∧ r.ptr = 0) ↔
        ∀ k, max min_order (Nat.clog 2 (2 ^ 31 / 8)) ≤ k → k ≤ state0.max_order →
          state0.list (k - min_order) = 0) ∧
      (∀ r s', alloc state0 (2 ^ 31) FillMode.ZERO = .ok (r, s') → r.ptr = 0 → s' = state0)) ∧
    alloc state0 (2 ^ 31) FillMode.ZERO = .ok (BuddyAllocationResult.null, state0) :=
  ⟨by decide, by decide,
    C5_alloc_null_iff state0 (2 ^ 31) FillMode.ZERO (by decide) (by decide), rfl⟩

end Buddy

namespace Buddy

/-! ## Zeroing done by `Freelist::add` -/

theorem add_inv (s : State) (block i : Nat) (s' : State) (hb : block ≠ 0)
    (h : Freelist.add s block i = .ok s') :
    i ≤ 21 ∧ s'.list = upd s.list i block ∧
      s'.mem = upd (memset s.mem block 0 4096) block (s.list i) := by
  by_cases hi : i ≤ 21
  · rw [add_ok s block i hi, if_pos hb] at h
    cases h
    exact ⟨hi, rfl, rfl⟩
  · unfold Freelist.add at h
    rw [sanityTrap_off] at h
    have h2 : i > orders := by rw [orders_eq]; omega
    simp [h2] at h

theorem coalesce_ends_with_add :
    ∀ (fuel : Nat) (s : State) (block order : Nat) (s' : State),
      coalesce fuel s block order = .ok s' → order ≠ s.max_order →
      buddy_of s block order ≠ 0 →
      ∃ s2, Freelist.add s2 block (order - min_order) = .ok s' := by
  intro fuel s block order s' h hne hbud
  cases fuel with
  | zero =>
    unfold coalesce at h
    rw [if_neg hne] at h
    cases h
  | succ fuel =>
    unfold coalesce at h
    rw [if_neg hne] at h
    simp only [hbud, if_false] at h
    split at h
    · cases h
    · split at h
      · split at h
        · cases h
        · split at h
          · cases h
          · rename_i s2 _
            exact ⟨s2, h⟩
      · exact ⟨s, h⟩

/-- Claim C8 as stated fails.  `Freelist::add` of the order-10 block at
`base0 + 2 ^ 10` to slot 1 leaves the word 512 of that block (byte 4096 of its
8192 bytes) with the junk it had; likewise after `alloc(8192, NONE)` and `free`
of the returned block its word 512 is still junk. -/
theorem C8_counterexample :
    (∃ s', Freelist.add state0 (base0 + 2 ^ 10) 1 = .ok s' ∧
      ¬ (∀ a, base0 + 2 ^ 10 + 1 ≤ a → a < base0 + 2 ^ 10 + 2 ^ (1 + min_order) →
          s'.mem a = 0)) ∧
    (∃ r s1 s2, alloc state0 8192 FillMode.NONE = .ok (r, s1) ∧ r.order = 10 ∧
      free 64 s1 r.ptr r.order.toNat = .ok s2 ∧
      ¬ (∀ a, r.ptr + 1 ≤ a → a < r.ptr + 2 ^ r.order.toNat → s2.mem a = 0)) := by
  refine ⟨⟨_, rfl, ?_⟩, ⟨_, _, _, rfl, rfl, rfl, ?_⟩⟩
  · intro h
    exact absurd (h (base0 + 2 ^ 10 + 512) (by decide) (by decide)) (by decide)
  · intro h
    exact absurd (h (base0 + 512) (by decide) (by decide)) (by decide)

/-- Claim C8, amended.  For every non-null block and every slot index `i` of the
bank, after `Freelist::add(block, i)` the block heads slot `i`, its first word
holds the previous head of slot `i`, the other 511 words of its first 4096
bytes are zero, and every word outside these 4096 bytes is unchanged; and a
block handed to `BuddyAllocator::free` that ends on a freelist (`order` is
`max_order` or its buddy pointer is non-null) has the other 511 words of its
first 4096 bytes zero afterwards. -/
theorem C8_add_zeroes_first_page :
    (∀ (s : State) (block i : Nat), block ≠ 0 → i ≤ largest_allowed_order - min_order →
      ∃ s', Freelist.add s block i = .ok s' ∧ s'.list i = block ∧ s'.mem block = s.list i ∧
        (∀ a, block < a → a < block + 512 → s'.mem a = 0) ∧
        (∀ a, a < block ∨ block + 512 ≤ a → s'.mem a = s.mem a)) ∧
    (∀ (fuel : Nat) (s : State) (block order : Nat) (s' : State), block ≠ 0 →
      free fuel s block order = .ok s' →
      order = s.max_order ∨ buddy_of s block order ≠ 0 →
      ∀ a, block < a → a < block + 512 → s'.mem a = 0) := by
  have hz : ∀ (m : Mem) (block v a : Nat), block < a → a < block + 512 →
      upd (memset m block 0 4096) block v a = 0 := by
    intro m block v a h1 h2
    rw [upd_other _ _ _ _ (by omega)]
    exact memset_in _ _ _ _ (by omega) (by omega)
  constructor
  · intro s block i hb hi
    have hi2 : i ≤ 21 := hi
    rw [add_ok s block i hi2, if_pos hb]
    refine ⟨_, rfl, upd_same _ _ _, upd_same _ _ _, ?_, ?_⟩
    · intro a h1 h2
      exact hz _ _ _ _ h1 h2
    · intro a ha
      show upd (memset s.mem block 0 4096) block (s.list i) a = s.mem a
      rw [upd_other _ _ _ _ (by omega)]
      exact memset_out _ _ _ _ _ (by omega)
  · intro fuel s block order s' hb h hcase a h1 h2
    unfold free at h
    by_cases hrange : ¬ (order ≥ min_order ∧ order ≤ s.max_order)
    · rw [if_pos hrange] at h
      cases h
    · rw [if_neg hrange, if_neg hb] at h
      by_cases hmax : order = s.max_order
      · rw [if_pos hmax] at h
        rw [(add_inv _ _ _ _ hb h).2.2]
        exact hz _ _ _ _ h1 h2
      · rw [if_neg hmax] at h
        have hbud : buddy_of s block order ≠ 0 := by
          rcases hcase with h' | h'
          · exact absurd h' hmax
          · exact h'
        obtain ⟨s2, hadd⟩ := coalesce_ends_with_add fuel s block order s' h hmax hbud
        rw [(add_inv _ _ _ _ hb hadd).2.2]
        exact hz _ _ _ _ h1 h2

/-- Witness of C8 (amended): `add` of the block `base0 + 2 ^ 10` to slot 1 of the
state after `init(base0, 30)`, and `free` of the block that `alloc(8192, NONE)`
returned. -/
theorem C8_add_zeroes_first_page_witness :
    (base0 + 2 ^ 10 ≠ 0 ∧ 1 ≤ largest_allowed_order - min_order ∧
      ∃ s', Freelist.add state0 (base0 + 2 ^ 10) 1 = .ok s' ∧ s'.list 1 = base0 + 2 ^ 10 ∧
        s'.mem (base0 + 2 ^ 10) = state0.list 1 ∧
        (∀ a, base0 + 2 ^ 10 < a → a < base0 + 2 ^ 10 + 512 → s'.mem a = 0) ∧
        (∀ a, a < base0 + 2 ^ 10 ∨ base0 + 2 ^ 10 + 512 ≤ a → s'.mem a = state0.mem a)) ∧
    (alloc state0 8192 FillMode.NONE = .ok (⟨base0, 10, 2⟩, state1) ∧ base0 ≠ 0 ∧
      ∃ s2, free 64 state1 base0 10 = .ok s2 ∧
        (10 = state1.max_order ∨ buddy_of state1 base0 10 ≠ 0) ∧
        ∀ a, base0 < a → a < base0 + 512 → s2.mem a = 0) :=
  ⟨⟨by decide, by decide,
      C8_add_zeroes_first_page.1 state0 (base0 + 2 ^ 10) 1 (by decide) (by decide)⟩,
    ⟨rfl, by decide, _, rfl, Or.inr (by decide),
      C8_add_zeroes_first_page.2 64 state1 base0 10 _ (by decide) rfl (Or.inr (by decide))⟩⟩

end Buddy

namespace Buddy

/-! ## Scenario S2: `free` after the first `alloc` -/

/-- Claim C1 evaluated on the code.  After `init(base0, 30)` the bank holds the
single block `base0` in its top slot 18.  `alloc(4096, ZERO)` returns `base0` at
order 9; `free(base0, 9)` right afterwards leaves `base0` at the head of the
slots 0 to 9 and the slots 10 to 21, the top slot 18 among them, empty: the
bank is not restored. -/
theorem C1_round_trip_not_restored :
    init heap0 base0 30 = .ok state0 ∧
    heads state0 = [0, 0, 0, 0, 0, 0, 0, 0, 0, 0, 0, 0, 0, 0, 0, 0, 0, 0, base0, 0, 0, 0] ∧
    ∃ r s1 s2, alloc state0 4096 FillMode.ZERO = .ok (r, s1) ∧ r.ptr = base0 ∧ r.order = 9 ∧
      free 64 s1 r.ptr r.order.toNat = .ok s2 ∧
      heads s2 = [base0, base0, base0, base0, base0, base0, base0, base0, base0, base0,
                  0, 0, 0, 0, 0, 0, 0, 0, 0, 0, 0, 0] ∧
      s2.list (s2.max_order - min_order) = 0 ∧ heads s2 ≠ heads state0 :=
  ⟨rfl, rfl, _, _, _, rfl, rfl, rfl, rfl, rfl, rfl, by decide⟩

/-- Claim C2 evaluated on the code.  After `init(base0, 30)`, `alloc(4096)`
returning `base0` and the matching `free(base0, 9)`, the next two calls
`alloc(4096, ZERO)` both return the block `base0` at order 9: two live
allocations with the same address. -/
theorem C2_two_live_allocations_same_block :
    init heap0 base0 30 = .ok state0 ∧
    ∃ r1 s1 s2 r2 s3 r3 s4, alloc state0 4096 FillMode.ZERO = .ok (r1, s1) ∧
      free 64 s1 r1.ptr r1.order.toNat = .ok s2 ∧
      alloc s2 4096 FillMode.ZERO = .ok (r2, s3) ∧
      alloc s3 4096 FillMode.ZERO = .ok (r3, s4) ∧
      r2.ptr = base0 ∧ r2.order = 9 ∧ r3.ptr = base0 ∧ r3.order = 9 ∧ r2.ptr ≠ 0 :=
  ⟨rfl, _, _, _, _, _, _, _, rfl, rfl, rfl, rfl, rfl, rfl, rfl, rfl, by decide⟩

/-- Claim C6 evaluated on the code.  After `init(base0, 30)`, `alloc(4096)` and
the matching `free(base0, 9)`, the block `base0` is on the chain of slot 0 and
on the chain of slot 1 (both chains are `base0`, then `base0 + 2 ^ 9`), and it
heads slot 9 as well. -/
theorem C6_block_in_several_slots :
    init heap0 base0 30 = .ok state0 ∧
    ∃ r s1 s2, alloc state0 4096 FillMode.ZERO = .ok (r, s1) ∧
      free 64 s1 r.ptr r.order.toNat = .ok s2 ∧
      isChain s2.mem (s2.list 0) [base0, base0 + 2 ^ 9] ∧
      isChain s2.mem (s2.list 1) [base0, base0 + 2 ^ 9] ∧
      isChain s2.mem (s2.list 9) [base0, base0 + 2 ^ 9] :=
  ⟨rfl, _, _, _, rfl, rfl,
    ⟨rfl, by decide, rfl, by decide, rfl⟩,
    ⟨rfl, by decide, rfl, by decide, rfl⟩,
    ⟨rfl, by decide, rfl, by decide, rfl⟩⟩

end Buddy

namespace frg

/-! ## The intrusive queue -/

theorem enqueue_empty (a : Nat) (next : Nat → Nat) :
    (intrusive_queue.mk0 next).enqueue (a + 1) =
      (queue_result.Okay,
        { size := 1, back := a + 1, front := a + 1, next := Buddy.upd next (a + 1) (a + 1) }) := by
  unfold intrusive_queue.enqueue intrusive_queue.mk0
  rw [if_neg (Nat.succ_ne_zero a)]
  simp only [if_true]
  norm_num

theorem dequeue_self_linked (a n : Nat) (next : Nat → Nat) :
    intrusive_queue.dequeue
        { size := n, back := a + 1, front := a + 1, next := Buddy.upd next (a + 1) (a + 1) } =
      (a + 1, { size := (n + 2 ^ 64 - 1) % 2 ^ 64, back := a + 1, front := a + 1,
                next := Buddy.upd next (a + 1) (a + 1) }) := by
  unfold intrusive_queue.dequeue intrusive_queue.empty
  have h1 : Buddy.upd next (a + 1) (a + 1) (a + 1) = a + 1 := by simp [Buddy.upd]
  simp only [h1, Nat.succ_ne_zero, decide_False, Bool.false_eq_true, if_false]

/-- Claim C9 evaluated on the code, `n = 1`, for any non-null item `a + 1` and any
initial hooks.  `enqueue` on an empty queue links the item to itself, so
`dequeue()` returns the item and leaves it at the front: the queue is not empty
although `size()` is 0, and a further `dequeue()` returns the item again (and
`size()` wraps to `2 ^ 64 - 1`) instead of null. -/
theorem C9_single_item_not_drained (a : Nat) (next : Nat → Nat) :
    ((intrusive_queue.mk0 next).enqueue (a + 1)).1 = queue_result.Okay ∧
    (dequeueN 2 (enqueueAll (intrusive_queue.mk0 next) [a + 1])).1 = [a + 1, a + 1] ∧
    (dequeueN 1 (enqueueAll (intrusive_queue.mk0 next) [a + 1])).2.empty = false ∧
    (dequeueN 1 (enqueueAll (intrusive_queue.mk0 next) [a + 1])).2.size = 0 ∧
    (dequeueN 2 (enqueueAll (intrusive_queue.mk0 next) [a + 1])).2.size = 2 ^ 64 - 1 := by
  simp only [dequeueN, enqueueAll, enqueue_empty, dequeue_self_linked, intrusive_queue.empty]
  norm_num

/-- Claim C10 evaluated on the code.  On the queue holding the items 1, 2 (built by
two `enqueue` calls, hooks initially null), `enqueue_head(3)` returns `Okay` and
makes 3 the front, but it also makes 3 the back and links nothing behind it:
`size()` is 3, while `dequeue()` returns 3 and then null, and the queue is empty
with `size()` 2. -/
theorem C10_enqueue_head_drops_queue :
    (enqueueAll (intrusive_queue.mk0 (fun _ => 0)) [1, 2]).front = 1 ∧
    (enqueueAll (intrusive_queue.mk0 (fun _ => 0)) [1, 2]).back = 2 ∧
    (dequeueN 3 (enqueueAll (intrusive_queue.mk0 (fun _ => 0)) [1, 2])).1 = [1, 2, 0] ∧
    ((enqueueAll (intrusive_queue.mk0 (fun _ => 0)) [1, 2]).enqueue_head 3).1
      = queue_result.Okay ∧
    ((enqueueAll (intrusive_queue.mk0 (fun _ => 0)) [1, 2]).enqueue_head 3).2.front = 3 ∧
    ((enqueueAll (intrusive_queue.mk0 (fun _ => 0)) [1, 2]).enqueue_head 3).2.back = 3 ∧
    ((enqueueAll (intrusive_queue.mk0 (fun _ => 0)) [1, 2]).enqueue_head 3).2.size = 3 ∧
    (dequeueN 3 ((enqueueAll (intrusive_queue.mk0 (fun _ => 0)) [1, 2]).enqueue_head 3).2).1
      = [3, 0, 0] ∧
    (dequeueN 3 ((enqueueAll (intrusive_queue.mk0 (fun _ => 0)) [1, 2]).enqueue_head 3).2).2.empty
      = true ∧
    (dequeueN 3 ((enqueueAll (intrusive_queue.mk0 (fun _ => 0)) [1, 2]).enqueue_head 3).2).2.size
      = 2 := by
  refine ⟨rfl, rfl, rfl, rfl, rfl, rfl, rfl, rfl, rfl, rfl⟩

end frg

namespace frg

/-! ## The init-once cell -/

theorem init_once_step_accessed {α : Type} (c : init_once α) (w : Assignment α)
    (h : c.accessed = true) : c.step w = c := by
  cases w <;>
    simp [init_once.step, init_once.assign, init_once.initialize, init_once.check_assign,
      FRG_LIKELY, h]

theorem init_once_run_accessed {α : Type} (ws : List (Assignment α)) :
    ∀ c : init_once α, c.accessed = true → c.run ws = c := by
  induction ws with
  | nil => intro c _; rfl
  | cons w ws ih =>
    intro c h
    rw [init_once.run, init_once_step_accessed c w h]
    exact ih c h

theorem init_once_step_fresh {α : Type} (c : init_once α) (w : Assignment α)
    (h : c.accessed = false) : c.step w = { accessed := true, storage := w.value } := by
  cases w <;>
    simp [init_once.step, init_once.assign, init_once.initialize, init_once.check_assign,
      FRG_LIKELY, h, Assignment.value]

/-- Claim C11.  For every non-empty sequence of assignments `w :: ws`, each through
`operator=` or through `initialize`, applied to a freshly constructed cell,
default-constructed (whatever its uninitialised storage holds) or constructed
with an initial value `v0`, `get()` returns the value of the first assignment;
in particular `=a, =b, =c` followed by a read returns `a`. -/
theorem C11_first_assignment_wins {α : Type} (junk v0 : α) (w : Assignment α)
    (ws : List (Assignment α)) (a b c : α) :
    ((init_once.fresh junk).run (w :: ws)).get = w.value ∧
    ((init_once.ofValue v0).run (w :: ws)).get = w.value ∧
    ((init_once.fresh junk).run [.viaAssign a, .viaAssign b, .viaAssign c]).get = a := by
  have key : ∀ (c0 : init_once α) (w : Assignment α) (ws : List (Assignment α)),
      c0.accessed = false → (c0.run (w :: ws)).get = w.value := by
    intro c0 w ws h
    rw [init_once.run, init_once_step_fresh c0 w h, init_once_run_accessed ws _ rfl]
    rfl
  exact ⟨key _ w ws rfl, key _ w ws rfl, key _ _ _ rfl⟩

end frg

namespace Buddy

/-! ## Buddy address arithmetic -/

theorem xor_two_pow_cancel (x k : Nat) (h : 2 ^ (k + 1) ∣ x) : (x + 2 ^ k) ^^^ 2 ^ k = x := by
  rw [← xor_two_pow_of_dvd x k h, Nat.xor_assoc, Nat.xor_self, Nat.xor_zero]

/-- Claim C15.  For every order `k < 31` and every block at or above `base` whose
offset `o` from `base`, in 8-byte words, is a multiple of `2 ^ k`: `buddy_of(block,
k)` is the block at word offset `o XOR 2 ^ k`, again a multiple of `2 ^ k`; it lies
exactly one block size (`2 ^ k` words, `2 ^ (k + 3)` bytes) above or below the
block; `buddy_of(buddy_of(block, k), k) = block`; and `min(block, buddy)` has an
offset that is a multiple of `2 ^ (k + 1)` with the other buddy `2 ^ k` words above
it, so the two buddies tile the order `k + 1` block at `min(block, buddy)`. -/
theorem C15_buddy_arithmetic (s : State) (block k : Nat) (_hk : k < 31)
    (hb : s.base ≤ block) (hd : 2 ^ k ∣ (block - s.base)) :
    buddy_of s block k - s.base = (block - s.base) ^^^ 2 ^ k ∧
    s.base ≤ buddy_of s block k ∧
    2 ^ k ∣ (buddy_of s block k - s.base) ∧
    (buddy_of s block k = block + 2 ^ k ∨ buddy_of s block k + 2 ^ k = block) ∧
    buddy_of s (buddy_of s block k) k = block ∧
    2 ^ (k + 1) ∣ (min block (buddy_of s block k) - s.base) ∧
    max block (buddy_of s block k) = min block (buddy_of s block k) + 2 ^ k := by
  have hpos : 0 < 2 ^ k := Nat.two_pow_pos k
  obtain ⟨c, hc⟩ := hd
  rcases Nat.even_or_odd' c with ⟨c', hc' | hc'⟩
  · -- the offset is a multiple of `2 ^ (k + 1)`: the buddy is the upper half
    have hd1 : 2 ^ (k + 1) ∣ (block - s.base) := ⟨c', by rw [hc, hc', pow_succ]; ring⟩
    have h1 : buddy_of s block k = block + 2 ^ k := buddy_of_aligned s block k hb _hk hd1
    have h2 : buddy_of s (block + 2 ^ k) k = block := by
      rw [buddy_of_offset _ _ _ (by omega) _hk, show block + 2 ^ k - s.base = (block - s.base) + 2 ^ k by omega,
        xor_two_pow_cancel _ _ hd1]
      omega
    rw [h1, h2]
    refine ⟨?_, by omega, ?_, Or.inl rfl, rfl, ?_, ?_⟩
    · rw [xor_two_pow_of_dvd _ _ hd1]
      omega
    · rw [show block + 2 ^ k - s.base = (block - s.base) + 2 ^ k by omega]
      exact Dvd.dvd.add ⟨c, hc⟩ (dvd_refl _)
    · rw [Nat.min_eq_left (by omega)]
      exact hd1
    · rw [Nat.max_eq_right (by omega), Nat.min_eq_left (by omega)]
  · -- the offset is `2 ^ k` above a multiple of `2 ^ (k + 1)`: the buddy is the lower half
    have hlow : 2 ^ (k + 1) ∣ 2 ^ (k + 1) * c' := Dvd.intro _ rfl
    have ho : block - s.base = 2 ^ (k + 1) * c' + 2 ^ k := by
      rw [hc, hc', pow_succ]
      ring
    have h1 : buddy_of s block k = s.base + 2 ^ (k + 1) * c' := by
      rw [buddy_of_offset _ _ _ hb _hk, ho, xor_two_pow_cancel _ _ hlow]
    have h2 : buddy_of s (s.base + 2 ^ (k + 1) * c') k = block := by
      rw [buddy_of_offset _ _ _ (by omega) _hk, show s.base + 2 ^ (k + 1) * c' - s.base = 2 ^ (k + 1) * c' by omega,
        xor_two_pow_of_dvd _ _ hlow]
      omega
    rw [h1, h2]
    refine ⟨?_, by omega, ?_, Or.inr (by omega), rfl, ?_, ?_⟩
    · rw [ho, xor_two_pow_cancel _ _ hlow]
      omega
    · rw [show s.base + 2 ^ (k + 1) * c' - s.base = 2 ^ (k + 1) * c' by omega, pow_succ,
        Nat.mul_assoc]
      exact Dvd.intro _ rfl
    · rw [Nat.min_eq_right (by omega),
        show s.base + 2 ^ (k + 1) * c' - s.base = 2 ^ (k + 1) * c' by omega]
      exact hlow
    · rw [Nat.max_eq_left (by omega), Nat.min_eq_right (by omega)]
      omega

/-- Witness of C15: the order-9 block `2 ^ 9` words above `base0` and its buddy
`base0`. -/
theorem C15_buddy_arithmetic_witness :
    9 < 31 ∧ state0.base ≤ base0 + 2 ^ 9 ∧ 2 ^ 9 ∣ (base0 + 2 ^ 9 - state0.base) ∧
    buddy_of state0 (base0 + 2 ^ 9) 9 = base0 ∧
    (buddy_of state0 (base0 + 2 ^ 9) 9 - state0.base = (base0 + 2 ^ 9 - state0.base) ^^^ 2 ^ 9 ∧
      state0.base ≤ buddy_of state0 (base0 + 2 ^ 9) 9 ∧
      2 ^ 9 ∣ (buddy_of state0 (base0 + 2 ^ 9) 9 - state0.base) ∧
      (buddy_of state0 (base0 + 2 ^ 9) 9 = base0 + 2 ^ 9 + 2 ^ 9 ∨
        buddy_of state0 (base0 + 2 ^ 9) 9 + 2 ^ 9 = base0 + 2 ^ 9) ∧
      buddy_of state0 (buddy_of state0 (base0 + 2 ^ 9) 9) 9 = base0 + 2 ^ 9 ∧
      2 ^ (9 + 1) ∣ (min (base0 + 2 ^ 9) (buddy_of state0 (base0 + 2 ^ 9) 9) - state0.base) ∧
      max (base0 + 2 ^ 9) (buddy_of state0 (base0 + 2 ^ 9) 9) =
        min (base0 + 2 ^ 9) (buddy_of state0 (base0 + 2 ^ 9) 9) + 2 ^ 9) :=
  ⟨by decide, by decide, by decide, by decide,
    C15_buddy_arithmetic state0 (base0 + 2 ^ 9) 9 (by decide) (by decide) (by decide)⟩

end Buddy

namespace Buddy

/-! ## `Freelist::remove` and the coalescing step on concrete states -/

/-- Claim C12 evaluated on the code.  After `init(base0, 30)`, four calls
`alloc(4096)` returning `base0`, `base0 + 512`, `base0 + 1024`, `base0 + 1536`, and
`free` of the first and the third block (the buddy of each is live, so each is
put back on slot 0), the chain of slot 0 is `base0 + 1024 -> base0`.
`remove(0)` returns the head `base0 + 1024` and leaves slot 0 empty, not holding
`base0`: the second assignment `list[order] = nullptr` drops the rest of the
chain.  On an empty slot `remove` returns null and changes nothing. -/
theorem C12_remove_empties_slot :
    ∃ r1 s1 r2 s2 r3 s3 r4 s4 s5 s6 s7,
      alloc state0 4096 FillMode.ZERO = .ok (r1, s1) ∧ r1.ptr = base0 ∧
      alloc s1 4096 FillMode.ZERO = .ok (r2, s2) ∧ r2.ptr = base0 + 512 ∧
      alloc s2 4096 FillMode.ZERO = .ok (r3, s3) ∧ r3.ptr = base0 + 1024 ∧
      alloc s3 4096 FillMode.ZERO = .ok (r4, s4) ∧ r4.ptr = base0 + 1536 ∧
      free 64 s4 r1.ptr r1.order.toNat = .ok s5 ∧
      free 64 s5 r3.ptr r3.order.toNat = .ok s6 ∧
      isChain s6.mem (s6.list 0) [base0 + 1024, base0] ∧
      Freelist.remove s6 0 = .ok (base0 + 1024, s7) ∧
      s7.list 0 = 0 ∧ ¬ isChain s7.mem (s7.list 0) [base0] ∧
      Freelist.remove s7 0 = .ok (0, s7) :=
  ⟨_, _, _, _, _, _, _, _, _, _, _, rfl, rfl, rfl, rfl, rfl, rfl, rfl, rfl, rfl, rfl,
    ⟨rfl, by decide, rfl, by decide, rfl⟩, rfl, rfl,
    fun h => absurd h.1 (by decide), rfl⟩

/-- Claim C13 evaluated on the code.  In the state after `init(base0, 30)` and
`alloc(4096)`, the buddy `base0 + 2 ^ 9` of the block `base0` at order 9 is on the
freelist of order 9 (slot 0).  `coalesce(base0, 9)` does not remove that buddy
from slot 0 and does add the block there: afterwards the chain of slot 0 is
`base0 -> base0 + 2 ^ 9`, holding both buddies. -/
theorem C13_coalesce_keeps_both_buddies :
    alloc state0 4096 FillMode.ZERO = .ok (⟨base0, 9, 1⟩, stateS1) ∧
    min_order ≤ 9 ∧ 9 < stateS1.max_order ∧
    buddy_of stateS1 base0 9 = base0 + 2 ^ 9 ∧
    isChain stateS1.mem (stateS1.list (9 - min_order)) [base0 + 2 ^ 9] ∧
    Freelist.find 64 stateS1 (buddy_of stateS1 base0 9) (9 - min_order) = .ok true ∧
    ∃ s2, coalesce 64 stateS1 base0 9 = .ok s2 ∧
      isChain s2.mem (s2.list (9 - min_order)) [base0, base0 + 2 ^ 9] :=
  ⟨rfl, by decide, by decide, rfl, ⟨rfl, by decide, rfl⟩, rfl, _, rfl,
    ⟨rfl, by decide, rfl, by decide, rfl⟩⟩

/-- Claim C14 evaluated on the code.  After `init(base0, 30)`, `alloc(2 ^ 25)`
returns `base0` at order 22 and leaves its buddy in slot 13.  `free(base0, 22)`
finds the buddy free and calls `freelist.remove(22)`: index 22 is outside the
bank, whose last slot is `orders = 21`, and the run leaves defined behaviour. -/
theorem C14_free_indexes_outside_bank :
    init heap0 base0 30 = .ok state0 ∧
    alloc state0 (2 ^ 25) FillMode.ZERO = .ok (⟨base0, 22, 2 ^ 13⟩, state32M) ∧
    min_order ≤ 22 ∧ 22 ≤ state32M.max_order ∧
    Freelist.find 64 state32M (buddy_of state32M base0 22) (22 - min_order) = .ok true ∧
    orders < 22 ∧
    Freelist.remove state32M 22 = .error .undefined ∧
    coalesce 64 state32M base0 22 = .error .undefined ∧
    free 64 state32M base0 22 = .error .undefined :=
  ⟨rfl, rfl, by decide, by decide, rfl, by decide, rfl, rfl, rfl⟩

/-- Claim C17 evaluated on the code with `sanity_checks` enabled.  The guard of
`add` and `remove` traps exactly on the indices below `min_order = 9` or above
`largest_allowed_order = 30`: `init(base0, 30)` passes (index 18), the first bank
access of `alloc(4096)`, `remove(0)`, traps, and `add` at index 22, outside the
bank, is let through to the array access. -/
theorem C17_sanity_check_range :
    (∀ i, sanityTrap true i = false ↔ (min_order ≤ i ∧ i ≤ largest_allowed_order)) ∧
    sanityTrap true 0 = true ∧ sanityTrap true 22 = false ∧
    initChecked true heap0 base0 30 = .ok state0 ∧
    Freelist.removeChecked true state0 0 = .error .trap ∧
    allocChecked true state0 4096 FillMode.ZERO = .error .trap ∧
    Freelist.addChecked true state0 (base0 + 2 ^ 10) 22 = .error .undefined := by
  refine ⟨?_, rfl, rfl, rfl, rfl, rfl, rfl⟩
  intro i
  simp only [sanityTrap, Bool.true_and, Bool.or_eq_false_iff, decide_eq_false_iff_not]
  omega

end Buddy

namespace frg

/-- Claim C20 evaluated on the code, for any non-null item `a + 1` and any
initial hooks.  After `enqueue` of the item on the empty queue and one
`dequeue()`, `size()` is 0 while `empty()` is false and `front()` and `back()` are
the item; after a second `dequeue()`, which again returns the item, one item
was enqueued and two non-null results were dequeued while `size()` is
`2 ^ 64 - 1`.  And after `enqueue(1)`, `enqueue(2)`, `enqueue_head(3)` and one
`dequeue()` the queue is empty with `front()` and `back()` null while `size()`
is 2. -/
theorem C20_size_and_emptiness_disagree (a : Nat) (next : Nat → Nat) :
    (dequeueN 1 (enqueueAll (intrusive_queue.mk0 next) [a + 1])).1 = [a + 1] ∧
    (dequeueN 1 (enqueueAll (intrusive_queue.mk0 next) [a + 1])).2.size = 0 ∧
    (dequeueN 1 (enqueueAll (intrusive_queue.mk0 next) [a + 1])).2.empty = false ∧
    (dequeueN 1 (enqueueAll (intrusive_queue.mk0 next) [a + 1])).2.front = a + 1 ∧
    (dequeueN 1 (enqueueAll (intrusive_queue.mk0 next) [a + 1])).2.back = a + 1 ∧
    (dequeueN 2 (enqueueAll (intrusive_queue.mk0 next) [a + 1])).1 = [a + 1, a + 1] ∧
    (dequeueN 2 (enqueueAll (intrusive_queue.mk0 next) [a + 1])).2.size = 2 ^ 64 - 1 ∧
    (dequeueN 1 ((enqueueAll (intrusive_queue.mk0 (fun _ => 0)) [1, 2]).enqueue_head 3).2).1
      = [3] ∧
    (dequeueN 1 ((enqueueAll (intrusive_queue.mk0 (fun _ => 0)) [1, 2]).enqueue_head 3).2).2.size
      = 2 ∧
    (dequeueN 1 ((enqueueAll (intrusive_queue.mk0 (fun _ => 0)) [1, 2]).enqueue_head 3).2).2.empty
      = true ∧
    (dequeueN 1 ((enqueueAll (intrusive_queue.mk0 (fun _ => 0)) [1, 2]).enqueue_head 3).2).2.front
      = 0 ∧
    (dequeueN 1 ((enqueueAll (intrusive_queue.mk0 (fun _ => 0)) [1, 2]).enqueue_head 3).2).2.back
      = 0 := by
  refine ⟨?_, ?_, ?_, ?_, ?_, ?_, ?_, rfl, rfl, rfl, rfl, rfl⟩
  all_goals
    simp only [dequeueN, enqueueAll, enqueue_empty, dequeue_self_linked, intrusive_queue.empty]
  all_goals norm_num

end frg

namespace Buddy

/-! ## Builds with and without sanity checks -/

theorem addChecked_off (s : State) (block order : Nat) :
    Freelist.addChecked sanity_checks s block order = Freelist.add s block order := rfl

theorem removeChecked_off (s : State) (order : Nat) :
    Freelist.removeChecked sanity_checks s order = Freelist.remove s order := rfl

theorem scanLoopChecked_off :
    ∀ (n : Nat) (s : State) (ord : Nat),
      scanLoopChecked sanity_checks n s ord = scanLoop n s ord := by
  intro n
  induction n with
  | zero => intro s ord; rfl
  | succ n ih =>
    intro s ord
    unfold scanLoopChecked scanLoop
    rw [removeChecked_off]
    split
    · rfl
    · rename_i block s1 _
      by_cases hb : block ≠ 0
      · rw [if_pos hb, if_pos hb]
      · rw [if_neg hb, if_neg hb]
        exact ih s1 (ord + 1)

theorem splitLoopChecked_off (block order : Nat) :
    ∀ (n : Nat) (s : State) (ord : Nat),
      splitLoopChecked sanity_checks block order n s ord = splitLoop block order n s ord := by
  intro n
  induction n with
  | zero => intro s ord; rfl
  | succ n ih =>
    intro s ord
    unfold splitLoopChecked splitLoop
    rw [addChecked_off]
    by_cases hgt : ord > order
    · rw [if_pos hgt, if_pos hgt]
      split
      · rfl
      · rename_i s1 _
        exact ih s1 (ord - 1)
    · rw [if_neg hgt, if_neg hgt]

theorem allocChecked_off (s : State) (size : Nat) (fill : FillMode) :
    allocChecked sanity_checks s size fill = alloc s size fill := by
  unfold allocChecked alloc
  simp only [scanLoopChecked_off, splitLoopChecked_off]

theorem initChecked_off (m : Mem) (base : Nat) (T : Int) :
    initChecked sanity_checks m base T = init m base T := rfl

/-! ## Termination of `coalesce` -/

theorem dropCalls_coalesceCalls :
    ∀ (fuel : Nat) (s : State) (block order : Nat),
      dropCalls (coalesceCalls fuel s block order) = coalesce fuel s block order := by
  intro fuel
  induction fuel with
  | zero =>
    intro s block order
    unfold coalesceCalls coalesce
    by_cases h : order = s.max_order
    · rw [if_pos h, if_pos h]; rfl
    · rw [if_neg h, if_neg h]; rfl
  | succ fuel ih =>
    intro s block order
    unfold coalesceCalls coalesce
    by_cases h : order = s.max_order
    · rw [if_pos h, if_pos h]; rfl
    · rw [if_neg h, if_neg h]
      by_cases hb : buddy_of s block order = 0
      · simp only [hb, if_true]; rfl
      · simp only [hb, if_false]
        cases hf : Freelist.find (fuel + 1) s (buddy_of s block order) (order - min_order) with
        | error e => rfl
        | ok free =>
          cases free with
          | false =>
            simp only [Bool.false_eq_true, if_false]
            cases Freelist.add s block (order - min_order) <;> rfl
          | true =>
            simp only [if_true]
            cases hr : Freelist.remove s order with
            | error e => rfl
            | ok p =>
              obtain ⟨x, s1⟩ := p
              have hrec := ih s1 (min block (buddy_of s block order)) (order + 1)
              simp only
              cases hc : coalesceCalls fuel s1 (min block (buddy_of s block order)) (order + 1) with
              | error e =>
                rw [hc] at hrec
                simp only [dropCalls] at hrec
                rw [← hrec]
                rfl
              | ok q =>
                obtain ⟨s2, n⟩ := q
                rw [hc] at hrec
                simp only [dropCalls] at hrec
                rw [← hrec]
                simp only
                cases Freelist.add s2 block (order - min_order) <;> rfl

end Buddy

namespace Buddy

theorem findLoop_chain (s : State) (block : Nat) (hb : block ≠ 0) :
    ∀ (l : List Nat) (p fuel : Nat), isChain s.mem p l → l.length ≤ fuel →
      Freelist.findLoop s block fuel p = .ok (decide (block ∈ l)) := by
  intro l
  induction l with
  | nil =>
    intro p fuel hc _
    have hp : p = 0 := hc
    subst hp
    cases fuel <;> simp [Freelist.findLoop]
  | cons b l ih =>
    intro p fuel hc hlen
    obtain ⟨hp, hb0, hrest⟩ := hc
    subst hp
    by_cases hpb : p = block
    · subst hpb
      cases fuel <;> simp [Freelist.findLoop, hb0]
    · cases fuel with
      | zero => simp at hlen
      | succ fuel =>
        have hne : block ≠ p := fun h => hpb h.symm
        unfold Freelist.findLoop
        rw [if_pos ⟨hb0, hpb⟩, ih (Freelist.next s p) fuel hrest
          (by simp only [List.length_cons] at hlen; omega)]
        simp [hne]

theorem find_chain (s : State) (block order fuel : Nat) (l : List Nat) (hb : block ≠ 0)
    (ho : order ≤ 21) (hc : isChain s.mem (s.list order) l) (hlen : l.length ≤ fuel) :
    Freelist.find fuel s block order = .ok (decide (block ∈ l)) := by
  unfold Freelist.find
  rw [if_neg (by rw [orders_eq]; omega)]
  exact findLoop_chain s block hb l _ fuel hc hlen

theorem chains_bounded (m : Mem) (f : Nat → Nat) :
    ∀ n : Nat, (∀ i, i ≤ n → ∃ l, isChain m (f i) l) →
      ∃ L, ∀ i, i ≤ n → ∃ l, isChain m (f i) l ∧ l.length ≤ L := by
  intro n
  induction n with
  | zero =>
    intro h
    obtain ⟨l, hl⟩ := h 0 (le_refl _)
    exact ⟨l.length, fun i hi => by
      have : i = 0 := by omega
      subst this
      exact ⟨l, hl, le_refl _⟩⟩
  | succ n ih =>
    intro h
    obtain ⟨L, hL⟩ := ih (fun i hi => h i (by omega))
    obtain ⟨l, hl⟩ := h (n + 1) (le_refl _)
    refine ⟨max L l.length, fun i hi => ?_⟩
    by_cases hin : i ≤ n
    · obtain ⟨l', hl', hlen⟩ := hL i hin
      exact ⟨l', hl', le_trans hlen (le_max_left _ _)⟩
    · have : i = n + 1 := by omega
      subst this
      exact ⟨l, hl, le_max_right _ _⟩

theorem remove_keeps_chains (s : State) (order : Nat) (ho : order ≤ 21) (L : Nat)
    (h : ∀ i, i ≤ 21 → ∃ l, isChain s.mem (s.list i) l ∧ l.length ≤ L) :
    ∃ x s1, Freelist.remove s order = .ok (x, s1) ∧ s1.max_order = s.max_order ∧
      ∀ i, i ≤ 21 → ∃ l, isChain s1.mem (s1.list i) l ∧ l.length ≤ L := by
  rw [remove_ok s order ho]
  by_cases hz : s.list order = 0
  · rw [if_pos hz]
    exact ⟨_, _, rfl, rfl, h⟩
  · rw [if_neg hz]
    refine ⟨_, _, rfl, rfl, ?_⟩
    intro i hi
    by_cases hio : i = order
    · subst hio
      refine ⟨[], ?_, Nat.zero_le _⟩
      show upd (upd s.list i (s.mem (s.list i))) i 0 i = 0
      exact upd_same _ _ _
    · obtain ⟨l, hl, hlen⟩ := h i hi
      refine ⟨l, ?_, hlen⟩
      show isChain s.mem (upd (upd s.list order (s.mem (s.list order))) order 0 i) l
      rw [upd_other _ _ _ _ hio, upd_other _ _ _ _ hio]
      exact hl

theorem coalesce_run (L : Nat) :
    ∀ (d fuel : Nat) (s : State) (block order : Nat), s.max_order = order + d → 9 ≤ order →
      (∀ i, i ≤ 21 → ∃ l, isChain s.mem (s.list i) l ∧ l.length ≤ L) → L + d ≤ fuel →
      (∃ s' n, coalesceCalls fuel s block order = .ok (s', n) ∧ n ≤ d) ∨
        (coalesceCalls fuel s block order = .error .undefined ∧ 22 < s.max_order) := by
  intro d
  induction d with
  | zero =>
    intro fuel s block order hmax _ _ _
    left
    have h : order = s.max_order := by omega
    refine ⟨s, 0, ?_, le_refl _⟩
    cases fuel <;> simp [coalesceCalls, h]
  | succ d ih =>
    intro fuel s block order hmax h9 hfin hfuel
    have hne : order ≠ s.max_order := by omega
    cases fuel with
    | zero => omega
    | succ fuel =>
      unfold coalesceCalls
      rw [if_neg hne]
      by_cases hb : buddy_of s block order = 0
      · left
        exact ⟨s, 0, by simp [hb], Nat.zero_le _⟩
      · simp only [hb, if_false, show min_order = 9 from rfl]
        by_cases hidx : order - 9 ≤ 21
        · obtain ⟨l, hl, hlen⟩ := hfin (order - 9) hidx
          rw [find_chain s _ (order - 9) (fuel + 1) l hb hidx hl (by omega)]
          by_cases hmem : buddy_of s block order ∈ l
          · simp only [hmem, decide_True, if_true]
            by_cases hrem : order ≤ 21
            · obtain ⟨x, s1, hr, hm1, hfin1⟩ := remove_keeps_chains s order hrem L hfin
              rw [hr]
              simp only
              rcases ih fuel s1 (min block (buddy_of s block order)) (order + 1)
                  (by omega) (by omega) hfin1 (by omega) with
                ⟨s2, n, hrun, hn⟩ | ⟨hrun, hbig⟩
              · left
                rw [hrun]
                simp only
                rw [add_ok s2 block (order - 9) hidx]
                exact ⟨_, n + 1, rfl, by omega⟩
              · right
                rw [hrun]
                exact ⟨rfl, by omega⟩
            · right
              have hr : Freelist.remove s order = .error .undefined := by
                unfold Freelist.remove
                rw [sanityTrap_off]
                have : order > orders := by rw [orders_eq]; omega
                simp [this]
              rw [hr]
              exact ⟨rfl, by omega⟩
          · left
            simp only [hmem, decide_False, Bool.false_eq_true, if_false]
            rw [add_ok s block (order - 9) hidx]
            exact ⟨_, 0, rfl, Nat.zero_le _⟩
        · right
          have hf : Freelist.find (fuel + 1) s (buddy_of s block order) (order - 9)
              = .error .undefined := by
            unfold Freelist.find
            have : order - 9 > orders := by rw [orders_eq]; omega
            simp [this]
          rw [hf]
          exact ⟨rfl, by omega⟩

end Buddy

namespace Buddy

theorem isChain_unique (m : Mem) :
    ∀ (l l' : List Nat) (p : Nat), isChain m p l → isChain m p l' → l = l' := by
  intro l
  induction l with
  | nil =>
    intro l' p h h'
    have hp : p = 0 := h
    cases l' with
    | nil => rfl
    | cons b l' =>
      obtain ⟨h1, h2, _⟩ := h'
      omega
  | cons b l ih =>
    intro l' p h h'
    obtain ⟨h1, h2, h3⟩ := h
    cases l' with
    | nil =>
      have hp : p = 0 := h'
      omega
    | cons b' l' =>
      obtain ⟨h1', _, h3'⟩ := h'
      have hbb : b = b' := by omega
      subst hbb
      rw [ih l' (m b) h3 h3']

theorem isChain_ne_zero (m : Mem) :
    ∀ (l : List Nat) (p : Nat), isChain m p l → ∀ b, b ∈ l → b ≠ 0 := by
  intro l
  induction l with
  | nil => intro p _ b hb; simp at hb
  | cons a l ih =>
    intro p h b hb
    obtain ⟨_, h2, h3⟩ := h
    rcases List.mem_cons.1 hb with rfl | hb'
    · exact h2
    · exact ih (m a) h3 b hb'

/-- Termination of `coalesce` and `free` wherever the run stays inside the
freelist bank.  In every state in which the chain of every slot of the bank is
finite and null-terminated, and for every order with `min_order ≤ order ≤
max_order`, for every sufficiently large bound on the loop of `find` and on the
recursion depth the run ends with a state, after at most `max_order - order`
recursive calls, or it reaches the out-of-range slot index of `remove`, which
needs `max_order > orders + 1 = 22`.  The run makes no recursive call at
`max_order` and none when the buddy is not on the chain of slot `order -
min_order`; when the buddy is on that chain, a run that returns has made a
recursive call. -/
theorem coalesce_ends_or_leaves_bank (s : State) (block order : Nat)
    (hfin : ∀ i, i ≤ orders → ∃ l, isChain s.mem (s.list i) l)
    (h1 : min_order ≤ order) (h2 : order ≤ s.max_order) :
    ∃ F, ∀ fuel, F ≤ fuel →
      ((∃ s' n, coalesceCalls fuel s block order = .ok (s', n) ∧
            coalesce fuel s block order = .ok s' ∧ n ≤ s.max_order - order) ∨
          (coalesce fuel s block order = .error .undefined ∧ orders + 1 < s.max_order)) ∧
      ((∃ s', free fuel s block order = .ok s') ∨
          (free fuel s block order = .error .undefined ∧ orders + 1 < s.max_order)) ∧
      (order = s.max_order → coalesceCalls fuel s block order = .ok (s, 0)) ∧
      (∀ l, order ≠ s.max_order → order ≤ largest_allowed_order →
          isChain s.mem (s.list (order - min_order)) l → buddy_of s block order ∉ l →
          ∃ s', coalesceCalls fuel s block order = .ok (s', 0)) ∧
      (∀ l, order ≠ s.max_order → order ≤ largest_allowed_order →
          isChain s.mem (s.list (order - min_order)) l → buddy_of s block order ∈ l →
          ∀ s' n, coalesceCalls fuel s block order = .ok (s', n) → 1 ≤ n) := by
  rw [orders_eq] at hfin
  rw [show min_order = 9 from rfl] at h1
  obtain ⟨L, hL⟩ := chains_bounded s.mem s.list 21 hfin
  refine ⟨L + (s.max_order - order) + 1, fun fuel hfuel => ?_⟩
  have hrun := coalesce_run L (s.max_order - order) fuel s block order (by omega) h1 hL
    (by omega)
  have hmain : (∃ s' n, coalesceCalls fuel s block order = .ok (s', n) ∧
        coalesce fuel s block order = .ok s' ∧ n ≤ s.max_order - order) ∨
      (coalesce fuel s block order = .error .undefined ∧ orders + 1 < s.max_order) := by
    rcases hrun with ⟨s', n, hr, hn⟩ | ⟨hr, hbig⟩
    · left
      refine ⟨s', n, hr, ?_, hn⟩
      rw [← dropCalls_coalesceCalls, hr]
      rfl
    · right
      refine ⟨?_, by rw [orders_eq]; omega⟩
      rw [← dropCalls_coalesceCalls, hr]
      rfl
  obtain ⟨f, rfl⟩ : ∃ f, fuel = f + 1 := ⟨fuel - 1, by omega⟩
  refine ⟨hmain, ?_, ?_, ?_, ?_⟩
  · -- `free`
    unfold free
    rw [if_neg (by rw [show min_order = 9 from rfl]; omega)]
    by_cases hb : block = 0
    · left
      rw [if_pos hb]
      exact ⟨s, rfl⟩
    · rw [if_neg hb]
      by_cases hmax : order = s.max_order
      · rw [if_pos hmax, show min_order = 9 from rfl]
        by_cases hidx : s.max_order - 9 ≤ 21
        · left
          rw [add_ok s block _ hidx]
          exact ⟨_, rfl⟩
        · right
          refine ⟨?_, by rw [orders_eq]; omega⟩
          unfold Freelist.add
          rw [sanityTrap_off]
          have : s.max_order - 9 > orders := by rw [orders_eq]; omega
          simp [this]
      · rw [if_neg hmax]
        rcases hmain with ⟨s', _, _, hr, _⟩ | h
        · exact Or.inl ⟨s', hr⟩
        · exact Or.inr h
  · intro hmax
    unfold coalesceCalls
    rw [if_pos hmax]
  · intro l hne h30 hl hnot
    rw [show min_order = 9 from rfl] at hl
    rw [show largest_allowed_order = 30 from rfl] at h30
    unfold coalesceCalls
    rw [if_neg hne]
    by_cases hb : buddy_of s block order = 0
    · exact ⟨s, by simp [hb]⟩
    · simp only [hb, if_false, show min_order = 9 from rfl]
      obtain ⟨l', hl', hlen⟩ := hL (order - 9) (by omega)
      have hll : l' = l := isChain_unique s.mem l' l _ hl' hl
      subst hll
      rw [find_chain s _ (order - 9) (f + 1) l' hb (by omega) hl (by omega)]
      simp only [hnot, decide_False, Bool.false_eq_true, if_false]
      rw [add_ok s block (order - 9) (by omega)]
      exact ⟨_, rfl⟩
  · intro l hne h30 hl hmem s' n hr
    rw [show min_order = 9 from rfl] at hl
    rw [show largest_allowed_order = 30 from rfl] at h30
    have hb : buddy_of s block order ≠ 0 := isChain_ne_zero s.mem l _ hl _ hmem
    obtain ⟨l', hl', hlen⟩ := hL (order - 9) (by omega)
    have hll : l' = l := isChain_unique s.mem l' l _ hl' hl
    subst hll
    unfold coalesceCalls at hr
    rw [if_neg hne] at hr
    simp only [hb, if_false, show min_order = 9 from rfl] at hr
    rw [find_chain s _ (order - 9) (f + 1) l' hb (by omega) hl (by omega)] at hr
    simp only [hmem, decide_True, if_true] at hr
    split at hr
    · cases hr
    · split at hr
      · cases hr
      · split at hr
        · cases hr
        · cases hr
          omega

end Buddy

namespace Buddy

/-- Claim C16 evaluated on the code.  After `init(base0, 30)` and `alloc(2 ^ 25)`,
which returns `base0` at order 22, the chain of every slot of the bank is finite
and null-terminated and `min_order ≤ 22 ≤ max_order = 27`.  The buddy of `base0`
at order 22 is the one block on the chain of slot `22 - min_order = 13`, so
`coalesce(base0, 22)` is at neither of the two stops of the recursion; it calls
`freelist.remove(22)`, whose index is outside the bank, and for no bound on the
recursion depth and on the loop of `find` does `coalesce(base0, 22)` or
`free(base0, 22)` end with a state: with any bound of at least 1 the run leaves
defined behaviour before the first recursive call. -/
theorem C16_coalesce_leaves_bank :
    init heap0 base0 30 = .ok state0 ∧
    alloc state0 (2 ^ 25) FillMode.ZERO = .ok (⟨base0, 22, 2 ^ 13⟩, state32M) ∧
    (∀ i, i ≤ orders → ∃ l, isChain state32M.mem (state32M.list i) l) ∧
    min_order ≤ 22 ∧ 22 ≤ state32M.max_order ∧ 22 ≠ state32M.max_order ∧
    isChain state32M.mem (state32M.list (22 - min_order)) [buddy_of state32M base0 22] ∧
    Freelist.remove state32M 22 = .error .undefined ∧
    (∀ fuel, ¬ ∃ s', coalesce fuel state32M base0 22 = .ok s') ∧
    (∀ fuel, ¬ ∃ s', free fuel state32M base0 22 = .ok s') ∧
    (∀ fuel, 1 ≤ fuel →
      coalesce fuel state32M base0 22 = .error .undefined ∧
      coalesceCalls fuel state32M base0 22 = .error .undefined ∧
      free fuel state32M base0 22 = .error .undefined) := by
  have hfin : ∀ i, i ≤ orders → ∃ l, isChain state32M.mem (state32M.list i) l := by
    intro i hi
    have hi2 : i ≤ 21 := hi
    interval_cases i <;> first | exact ⟨[], rfl⟩ | exact ⟨[_], rfl, by decide, rfl⟩
  have hchain : isChain state32M.mem (state32M.list (22 - min_order))
      [buddy_of state32M base0 22] := ⟨rfl, by decide, rfl⟩
  have hb : buddy_of state32M base0 22 ≠ 0 := by decide
  have hmax : ¬ (22 = state32M.max_order) := by decide
  have hrem : Freelist.remove state32M 22 = .error .undefined := rfl
  have hfind : ∀ f, Freelist.find (f + 1) state32M (buddy_of state32M base0 22)
      (22 - min_order) = .ok true := by
    intro f
    rw [find_chain state32M _ (22 - min_order) (f + 1) [buddy_of state32M base0 22] hb
      (by decide) hchain (by simp)]
    simp
  have hcalls : ∀ f, coalesceCalls (f + 1) state32M base0 22 = .error .undefined := by
    intro f
    unfold coalesceCalls
    rw [if_neg hmax]
    simp only [hb, if_false, hfind f, if_true, hrem]
  have hco : ∀ f, coalesce (f + 1) state32M base0 22 = .error .undefined := by
    intro f
    rw [← dropCalls_coalesceCalls, hcalls f]
    rfl
  have hfree : ∀ fuel, free fuel state32M base0 22 = coalesce fuel state32M base0 22 := by
    intro fuel
    unfold free
    rw [if_neg (by decide), if_neg (by decide), if_neg hmax]
  have hno : ∀ fuel, ¬ ∃ s', coalesce fuel state32M base0 22 = .ok s' := by
    intro fuel
    rintro ⟨s', h⟩
    cases fuel with
    | zero =>
      unfold coalesce at h
      rw [if_neg hmax] at h
      cases h
    | succ f =>
      rw [hco f] at h
      cases h
  refine ⟨rfl, rfl, hfin, by decide, by decide, hmax, hchain, hrem, hno, ?_, ?_⟩
  · intro fuel
    rw [hfree fuel]
    exact hno fuel
  · intro fuel hfuel
    obtain ⟨f, rfl⟩ : ∃ f, fuel = f + 1 := ⟨fuel - 1, by omega⟩
    exact ⟨hco f, hcalls f, by rw [hfree, hco f]⟩

end Buddy

namespace Buddy

/-! ## States reachable by `alloc` only -/

theorem two_pow_double_le (k t : Nat) (h : k < t) : 2 ^ k + 2 ^ k ≤ 2 ^ t := by
  have h1 : 2 ^ (k + 1) ≤ 2 ^ t := Nat.pow_le_pow_right (by decide) h
  rw [pow_succ] at h1
  omega

theorem two_pow_segment (r : Nat) :
    ∀ (t x : Nat), r ≤ t → 2 ^ r ≤ x → x < 2 ^ t →
      ∃ k, r ≤ k ∧ k < t ∧ 2 ^ k ≤ x ∧ x < 2 ^ k + 2 ^ k := by
  intro t
  induction t with
  | zero =>
    intro x hr h1 h2
    have : r = 0 := by omega
    subst this
    omega
  | succ t ih =>
    intro x hr h1 h2
    by_cases hrt : r = t + 1
    · subst hrt
      omega
    · by_cases hx : x < 2 ^ t
      · obtain ⟨k, hk1, hk2, hk3, hk4⟩ := ih x (by omega) h1 hx
        exact ⟨k, hk1, by omega, hk3, hk4⟩
      · refine ⟨t, by omega, by omega, by omega, ?_⟩
        rw [pow_succ] at h2
        omega

theorem allocInv_step (base M : Nat) (s s' : State) (L : List (Nat × Nat)) (b r0 t : Nat)
    (hinv : AllocInv base M s L) (h9 : 9 ≤ r0) (hrt : r0 ≤ t) (htM : t ≤ M)
    (hhead : s.list (t - 9) = b) (hb : b ≠ 0)
    (hE : ∀ i, r0 ≤ i + 9 → i + 9 < t → s.list i = 0)
    (hbase' : s'.base = base) (hmax' : s'.max_order = M)
    (hN : ∀ i, r0 ≤ i + 9 → i + 9 < t → s'.list i = b + 2 ^ (i + 9))
    (hT : s'.list (t - 9) = 0)
    (hO : ∀ i, i + 9 < r0 ∨ t < i + 9 → s'.list i = s.list i)
    (hM0 : ∀ k, r0 ≤ k → k < t → s'.mem (b + 2 ^ k) = 0)
    (hMout : ∀ a, a < b ∨ b + 2 ^ t ≤ a → s'.mem a = s.mem a) :
    AllocInv base M s' ((b, r0) :: L) := by
  have hbne : s.list (t - 9) ≠ 0 := by rw [hhead]; exact hb
  obtain ⟨_, hb1, hb2, hb3, _⟩ := hinv.free_ok (t - 9) hbne
  have ht9 : t - 9 + 9 = t := by omega
  simp only [hhead, ht9] at hb1 hb2 hb3
  have hpos : ∀ k, 0 < 2 ^ k := fun k => Nat.two_pow_pos k
  have hmono : ∀ k, r0 ≤ k → 2 ^ r0 ≤ 2 ^ k := fun k hk => Nat.pow_le_pow_right (by decide) hk
  have hrt2 : 2 ^ r0 ≤ 2 ^ t := hmono t hrt
  have hpt := hpos t
  have hpr := hpos r0
  have hpM := hpos M
  -- an old head other than `b` lies outside the block `[b, b + 2 ^ t)`
  have hold : ∀ i, i ≠ t - 9 → s.list i ≠ 0 →
      s.list i + 2 ^ (i + 9) ≤ b ∨ b + 2 ^ t ≤ s.list i := by
    intro i hi hne
    have h := hinv.free_disj i (t - 9) hi hne hbne
    rw [hhead, show t - 9 + 9 = t by omega] at h
    exact h
  -- the shape of a non-empty slot of the new state
  have hshape : ∀ i, s'.list i ≠ 0 →
      (r0 ≤ i + 9 ∧ i + 9 < t ∧ s'.list i = b + 2 ^ (i + 9)) ∨
        (i ≠ t - 9 ∧ s'.list i = s.list i ∧ s.list i ≠ 0) := by
    intro i hne
    by_cases h1 : r0 ≤ i + 9 ∧ i + 9 < t
    · exact Or.inl ⟨h1.1, h1.2, hN i h1.1 h1.2⟩
    · by_cases h2 : i = t - 9
      · rw [h2, hT] at hne
        exact absurd rfl hne
      · have h3 := hO i (by omega)
        exact Or.inr ⟨h2, h3, by rw [← h3]; exact hne⟩
  refine ⟨hbase', hmax', ?_, ?_, ?_, ?_, ?_, ?_⟩
  · -- free_ok
    intro i hne
    rcases hshape i hne with ⟨h1, h2, h3⟩ | ⟨h1, h2, h3⟩
    · have hd := two_pow_double_le (i + 9) t h2
      have hpi := hpos (i + 9)
      rw [h3]
      refine ⟨by omega, by omega, ?_, by omega, hM0 (i + 9) h1 h2⟩
      rw [show b + 2 ^ (i + 9) - base = (b - base) + 2 ^ (i + 9) by omega]
      exact Dvd.dvd.add (Dvd.dvd.trans (pow_dvd_pow 2 (by omega)) hb2) (dvd_refl _)
    · obtain ⟨g1, g2, g3, g4, g5⟩ := hinv.free_ok i h3
      rw [h2]
      refine ⟨g1, g2, g3, g4, ?_⟩
      rw [hMout _ (by have := hold i h1 h3; have := hpos (i + 9); omega)]
      exact g5
  · -- free_disj
    intro i j hij hi hj
    unfold disjointBlocks
    have hpi := hpos (i + 9)
    have hpj := hpos (j + 9)
    rcases hshape i hi with ⟨h1, h2, h3⟩ | ⟨h1, h2, h3⟩
    · rcases hshape j hj with ⟨k1, k2, k3⟩ | ⟨k1, k2, k3⟩
      · rw [h3, k3]
        rcases Nat.lt_or_gt_of_ne hij with hlt | hgt
        · have := two_pow_double_le (i + 9) (j + 9) (by omega)
          omega
        · have := two_pow_double_le (j + 9) (i + 9) (by omega)
          omega
      · rw [h3, k2]
        have := two_pow_double_le (i + 9) t h2
        have := hold j k1 k3
        have := hpos (i + 9)
        omega
    · rcases hshape j hj with ⟨k1, k2, k3⟩ | ⟨k1, k2, k3⟩
      · rw [h2, k3]
        have := two_pow_double_le (j + 9) t k2
        have := hold i h1 h3
        have := hpos (j + 9)
        omega
      · rw [h2, k2]
        exact hinv.free_disj i j hij h3 k3
  · -- live_ok
    intro a ha
    rcases List.mem_cons.1 ha with rfl | ha'
    · exact ⟨h9, hb1, Dvd.dvd.trans (pow_dvd_pow 2 hrt) hb2, by show b + 2 ^ r0 ≤ _; omega⟩
    · exact hinv.live_ok a ha'
  · -- live_disj
    refine List.Pairwise.cons ?_ hinv.live_disj
    intro a ha
    have h := hinv.live_free a ha (t - 9) hbne
    rw [hhead, show t - 9 + 9 = t by omega] at h
    unfold disjointBlocks at h ⊢
    have hpa := hpos a.2
    show b + 2 ^ r0 ≤ a.1 ∨ a.1 + 2 ^ a.2 ≤ b
    omega
  · -- live_free
    intro a ha i hne
    unfold disjointBlocks
    have hpi := hpos (i + 9)
    have hpa := hpos a.2
    rcases List.mem_cons.1 ha with rfl | ha'
    · show b + 2 ^ r0 ≤ s'.list i ∨ s'.list i + 2 ^ (i + 9) ≤ b
      rcases hshape i hne with ⟨h1, h2, h3⟩ | ⟨h1, h2, h3⟩
      · rw [h3]
        have := hmono (i + 9) h1
        omega
      · rw [h2]
        have := hold i h1 h3
        omega
    · have hb' := hinv.live_free a ha' (t - 9) hbne
      rw [hhead, show t - 9 + 9 = t by omega] at hb'
      unfold disjointBlocks at hb'
      rcases hshape i hne with ⟨h1, h2, h3⟩ | ⟨h1, h2, h3⟩
      · rw [h3]
        have := two_pow_double_le (i + 9) t h2
        have := hpos (i + 9)
        omega
      · rw [h2]
        exact hinv.live_free a ha' i h3
  · -- cover
    intro x hx1 hx2
    rcases hinv.cover x hx1 hx2 with ⟨a, ha, h1, h2⟩ | ⟨i, hne, h1, h2⟩
    · exact Or.inl ⟨a, List.mem_cons_of_mem _ ha, h1, h2⟩
    · by_cases hit : i = t - 9
      · subst hit
        simp only [hhead, ht9] at h1 h2
        by_cases hx : x < b + 2 ^ r0
        · exact Or.inl ⟨(b, r0), List.mem_cons_self _ _, h1, hx⟩
        · obtain ⟨k, hk1, hk2, hk3, hk4⟩ :=
            two_pow_segment r0 t (x - b) hrt (by omega) (by omega)
          right
          refine ⟨k - 9, ?_, ?_, ?_⟩
          · rw [hN (k - 9) (by omega) (by omega)]
            have := hpos (k - 9 + 9)
            omega
          · rw [hN (k - 9) (by omega) (by omega), show k - 9 + 9 = k by omega]
            omega
          · rw [hN (k - 9) (by omega) (by omega), show k - 9 + 9 = k by omega]
            omega
      · have hnotE : ¬ (r0 ≤ i + 9 ∧ i + 9 < t) := by
          intro h
          exact hne (hE i h.1 h.2)
        have h3 := hO i (by omega)
        right
        exact ⟨i, by rw [h3]; exact hne, by rw [h3]; exact h1, by rw [h3]; exact h2⟩

end Buddy

namespace Buddy

theorem alloc_of_log2 (s : State) (size : Nat) (fill : FillMode) (l : Nat)
    (hl : log2 (toInt32 (size % 2 ^ 64 / 8)) = .ok l) :
    alloc s size fill =
      match scanLoop (s.max_order + 1 - max min_order l) s (max min_order l) with
      | .error e => .error e
      | .ok (block, ord, s1) =>
        if block = 0 then .ok (BuddyAllocationResult.null, s1)
        else
          match splitLoop block (max min_order l) (ord - max min_order l) s1 ord with
          | .error e => .error e
          | .ok (s2, ord2) => allocFinish s2 block (max min_order l) ord2 fill := by
  unfold alloc
  rw [hl]
  simp only [sanity_checks, Bool.false_and, Bool.false_eq_true, if_false]

theorem alloc_found (s : State) (size : Nat) (fill : FillMode) (l b t : Nat)
    (hl : log2 (toInt32 (size % 2 ^ 64 / 8)) = .ok l)
    (hrt : max min_order l ≤ t) (ht : t ≤ s.max_order) (ht27 : t ≤ 27)
    (hempty : ∀ k, max min_order l ≤ k → k < t → s.list (k - 9) = 0)
    (hhead : s.list (t - 9) = b) (hb : b ≠ 0) (hbase : s.base ≤ b)
    (hal : 2 ^ t ∣ (b - s.base)) :
    ∃ res s', alloc s size fill = .ok (res, s') ∧ res.ptr = b ∧
      res.order = ((max min_order l : Nat) : Int) ∧
      s'.base = s.base ∧ s'.max_order = s.max_order ∧
      (∀ i, max min_order l ≤ i + 9 → i + 9 < t → s'.list i = b + 2 ^ (i + 9)) ∧
      s'.list (t - 9) = 0 ∧
      (∀ i, i + 9 < max min_order l ∨ t < i + 9 → s'.list i = s.list i) ∧
      (∀ k, max min_order l ≤ k → k < t → s'.mem (b + 2 ^ k) = 0) ∧
      (∀ a, a < b ∨ b + 2 ^ t ≤ a → s'.mem a = s.mem a) := by
  rw [alloc_of_log2 s size fill l hl]
  have h9 : 9 ≤ max min_order l := le_max_left _ _
  generalize max min_order l = r at *
  have hne : s.list (t - 9) ≠ 0 := by rw [hhead]; exact hb
  rw [scan_found (s.max_order + 1 - r) s r t h9 hrt (by omega) (by omega) hempty hne, hhead]
  simp only [hb, if_false]
  obtain ⟨s2, hrun, hmax, hbs, hlist, hmem, hout⟩ :=
    split_spec b r (t - r)
      { s with list := upd (upd s.list (t - 9) (s.mem b)) (t - 9) 0 } hbase
      (by rw [show r + (t - r) = t by omega]; exact hal) h9 (by omega)
  dsimp only at hmax hbs hlist hmem hout
  rw [show r + (t - r) = t by omega] at hlist hmem hout
  rw [show r + (t - r) = t by omega] at hrun
  rw [hrun]
  show ∃ res s', allocFinish s2 b r (r - 1) fill = .ok (res, s') ∧ _
  rw [allocFinish_small s2 b r fill h9 (by omega)]
  have hmono : 2 ^ r ≤ 2 ^ t := Nat.pow_le_pow_right (by decide) hrt
  have hpr : 0 < 2 ^ r := Nat.two_pow_pos r
  -- the list and the memory of the state before the final `memset`
  have hN : ∀ i, r ≤ i + 9 → i + 9 < t → s2.list i = b + 2 ^ (i + 9) := by
    intro i h1 h2
    rw [hlist i, if_pos ⟨h1, h2⟩]
  have hT : s2.list (t - 9) = 0 := by
    rw [hlist (t - 9), if_neg (by omega)]
    exact upd_same _ _ _
  have hO : ∀ i, i + 9 < r ∨ t < i + 9 → s2.list i = s.list i := by
    intro i hi
    rw [hlist i, if_neg (by omega), upd_other _ _ _ _ (by omega),
      upd_other _ _ _ _ (by omega)]
  have hM0 : ∀ k, r ≤ k → k < t → s2.mem (b + 2 ^ k) = 0 := by
    intro k h1 h2
    rw [hmem k h1 h2, upd_other _ _ _ _ (by omega), upd_other _ _ _ _ (by omega)]
    exact hempty k h1 h2
  by_cases hf : fill = FillMode.NONE
  · simp only [hf, ne_eq, not_true_eq_false, if_false]
    refine ⟨_, _, rfl, rfl, rfl, hbs, hmax, hN, hT, hO, hM0, ?_⟩
    intro a ha
    exact hout a (by omega)
  · simp only [hf, ne_eq, not_false_eq_true, if_true]
    refine ⟨_, _, rfl, rfl, rfl, hbs, hmax, hN, hT, hO, ?_, ?_⟩
    · intro k h1 h2
      have hk : 2 ^ r ≤ 2 ^ k := Nat.pow_le_pow_right (by decide) h1
      show memset s2.mem b fill.val (2 ^ (r + 3)) (b + 2 ^ k) = 0
      rw [memset_out _ _ _ _ _ (Or.inr (by rw [two_pow_add_three_div]; omega))]
      exact hM0 k h1 h2
    · intro a ha
      show memset s2.mem b fill.val (2 ^ (r + 3)) a = s.mem a
      rw [memset_out _ _ _ _ _ (by rw [two_pow_add_three_div]; omega)]
      exact hout a (by omega)

end Buddy

namespace Buddy

theorem alloc_preserves (base M : Nat) (s s' : State) (L : List (Nat × Nat)) (size : Nat)
    (fill : FillMode) (r : BuddyAllocationResult) (hinv : AllocInv base M s L) (hM : M ≤ 27)
    (hr : alloc s size fill = .ok (r, s')) :
    (r.ptr = 0 ∧ s' = s) ∨
      (r.ptr ≠ 0 ∧ AllocInv base M s' ((r.ptr, r.order.toNat) :: L)) := by
  have hmaxs : s.max_order = M := hinv.hmax
  have hbases : s.base = base := hinv.hbase
  cases hlog : log2 (toInt32 (size % 2 ^ 64 / 8)) with
  | error e =>
    unfold alloc at hr
    rw [hlog] at hr
    cases hr
  | ok l =>
    have h9 : 9 ≤ max min_order l := le_max_left _ _
    by_cases hgt : s.max_order < max min_order l
    · left
      rw [alloc_of_log2 s size fill l hlog,
        show s.max_order + 1 - max min_order l = 0 by omega] at hr
      simp only [scanLoop, if_true] at hr
      cases hr
      exact ⟨rfl, rfl⟩
    · rcases scan_cases (s.max_order + 1 - max min_order l) s (max min_order l) h9
          (by omega) with ⟨_, hrun⟩ | ⟨t, h1, h2, h3, h4, _⟩
      · left
        rw [alloc_of_log2 s size fill l hlog, hrun] at hr
        simp only [if_true] at hr
        cases hr
        exact ⟨rfl, rfl⟩
      · right
        obtain ⟨g1, g2, g3, g4, g5⟩ := hinv.free_ok (t - 9) h4
        have ht9 : t - 9 + 9 = t := by omega
        rw [ht9] at g1 g3 g4
        obtain ⟨res, s'', hrun, hptr, hord, hbs, hmx, hN, hT, hO, hM0, hMout⟩ :=
          alloc_found s size fill l (s.list (t - 9)) t hlog h1 (by omega) (by omega) h3 rfl h4
            (by rw [hbases]; exact g2) (by rw [hbases]; exact g3)
        rw [hrun] at hr
        cases hr
        have hordn : r.order.toNat = max min_order l := by
          rw [hord, Int.toNat_ofNat]
        rw [hptr, hordn]
        refine ⟨h4, ?_⟩
        exact allocInv_step base M s s' L (s.list (t - 9)) (max min_order l) t hinv h9 h1
          (by omega) rfl h4
          (fun i hi1 hi2 => by
            have := h3 (i + 9) hi1 hi2
            rw [show i + 9 - 9 = i by omega] at this
            exact this)
          (by rw [hbs, hbases]) (by rw [hmx, hmaxs]) hN hT hO hM0 hMout

theorem init_allocInv (m : Mem) (base T : Nat) (s : State) (hb : base ≠ 0) (h1 : 12 ≤ T)
    (h2 : T ≤ 30) (hs : init m base (T : Int) = .ok s) : AllocInv base (T - 3) s [] := by
  rw [init_ok m base T hb h1 h2] at hs
  cases hs
  have hslot : ∀ i, upd (fun _ => 0) (T - 12) base i ≠ 0 →
      i = T - 12 ∧ upd (fun _ => 0) (T - 12) base i = base := by
    intro i hi
    by_cases h : i = T - 12
    · exact ⟨h, by rw [h]; exact upd_same _ _ _⟩
    · rw [upd_other _ _ _ _ h] at hi
      exact absurd rfl hi
  refine ⟨rfl, rfl, ?_, ?_, ?_, List.Pairwise.nil, ?_, ?_⟩
  · intro i hi
    obtain ⟨h, hv⟩ := hslot i hi
    dsimp only at hi ⊢
    rw [hv, h, show T - 12 + 9 = T - 3 by omega]
    refine ⟨le_refl _, le_refl _, by simp, le_refl _, upd_same _ _ _⟩
  · intro i j hij hi hj
    have := (hslot i hi).1
    have := (hslot j hj).1
    omega
  · intro a ha
    simp at ha
  · intro a ha
    simp at ha
  · intro x hx1 hx2
    right
    refine ⟨T - 12, ?_, ?_, ?_⟩
    · show upd (fun _ => 0) (T - 12) base (T - 12) ≠ 0
      rw [upd_same]
      exact hb
    · show upd (fun _ => 0) (T - 12) base (T - 12) ≤ x
      rw [upd_same]
      exact hx1
    · show x < upd (fun _ => 0) (T - 12) base (T - 12) + 2 ^ (T - 12 + 9)
      rw [upd_same, show T - 12 + 9 = T - 3 by omega]
      exact hx2

theorem allocOnly_inv (m : Mem) (base T : Nat) (hb : base ≠ 0) (h1 : 12 ≤ T) (h2 : T ≤ 30)
    (s : State) (L : List (Nat × Nat)) (hreach : AllocOnly m base T s L) :
    AllocInv base (T - 3) s L := by
  induction hreach with
  | init hs => exact init_allocInv m base T _ hb h1 h2 hs
  | failed _ hr hp ih =>
    rcases alloc_preserves base (T - 3) _ _ _ _ _ _ ih (by omega) hr with ⟨_, hs⟩ | ⟨hne, _⟩
    · rw [hs]
      exact ih
    · exact absurd hp hne
  | served _ hr hp ih =>
    rcases alloc_preserves base (T - 3) _ _ _ _ _ _ ih (by omega) hr with ⟨hz, _⟩ | ⟨_, hinv⟩
    · exact absurd hz hp
    · exact hinv

end Buddy

namespace Buddy

theorem allocInv_chain (base M : Nat) (s : State) (L : List (Nat × Nat))
    (hinv : AllocInv base M s L) (i : Nat) (l : List Nat)
    (hl : isChain s.mem (s.list i) l) :
    l = [] ∨ (s.list i ≠ 0 ∧ l = [s.list i]) := by
  by_cases hz : s.list i = 0
  · left
    exact isChain_unique s.mem l [] _ hl hz
  · right
    refine ⟨hz, isChain_unique s.mem l [s.list i] _ hl ⟨rfl, hz, ?_⟩⟩
    exact (hinv.free_ok i hz).2.2.2.2

theorem allocOnly_demo :
    AllocOnly heap0 base0 30 stateS1b [(base0 + 2 ^ 10, 10), (base0, 9)] :=
  AllocOnly.served
    (AllocOnly.served (AllocOnly.init (rfl : init heap0 base0 ((30 : Nat) : Int) = .ok state0))
      (rfl : alloc state0 4096 FillMode.ZERO = .ok (⟨base0, 9, 1⟩, stateS1)) (by decide))
    (rfl : alloc stateS1 8192 FillMode.NONE = .ok (⟨base0 + 2 ^ 10, 10, 2⟩, stateS1b))
    (by decide)

/-- Claim C18.  In every state reached from `init(base, T)`, `12 ≤ T ≤ 30`, `base`
non-null, by calls of `alloc` only, with `L` the list of the `(ptr, order)` of the
calls that returned a block: the blocks of `L` are pairwise disjoint; each is
non-null, lies inside the region (in words `[base, base + 2 ^ (T - 3))`, in bytes
`[8 base, 8 base + 2 ^ T)`), and its offset from `base` is a multiple of its size
(`2 ^ order` words, `2 ^ (order + 3)` bytes); and none overlaps a block on the
chain of any slot `i`, a block of `2 ^ (i + min_order)` words. -/
theorem C18_alloc_only_sound (m : Mem) (base T : Nat) (s : State) (L : List (Nat × Nat))
    (hb : base ≠ 0) (h1 : 12 ≤ T) (h2 : T ≤ 30) (hreach : AllocOnly m base T s L) :
    L.Pairwise (fun a c => disjointBlocks a.1 a.2 c.1 c.2) ∧
    (∀ a, a ∈ L → a.1 ≠ 0 ∧ base ≤ a.1 ∧ a.1 + 2 ^ a.2 ≤ base + 2 ^ (T - 3) ∧
      2 ^ a.2 ∣ (a.1 - base) ∧
      8 * a.1 + 2 ^ (a.2 + 3) ≤ 8 * base + 2 ^ T ∧
      2 ^ (a.2 + 3) ∣ (8 * a.1 - 8 * base)) ∧
    (∀ a, a ∈ L → ∀ i l b, i ≤ orders → isChain s.mem (s.list i) l → b ∈ l →
      disjointBlocks a.1 a.2 b (i + min_order)) := by
  have hinv := allocOnly_inv m base T hb h1 h2 s L hreach
  refine ⟨hinv.live_disj, ?_, ?_⟩
  · intro a ha
    obtain ⟨g1, g2, g3, g4⟩ := hinv.live_ok a ha
    have hT : 2 ^ T = 8 * 2 ^ (T - 3) := by
      have h := pow_add 2 (T - 3) 3
      rw [show T - 3 + 3 = T by omega] at h
      omega
    have ho : 2 ^ (a.2 + 3) = 8 * 2 ^ a.2 := by
      have h := pow_add 2 a.2 3
      omega
    refine ⟨by omega, g2, g4, g3, by omega, ?_⟩
    rw [ho, ← Nat.mul_sub]
    exact Nat.mul_dvd_mul_left 8 g3
  · intro a ha i l b _ hl hbl
    rcases allocInv_chain base (T - 3) s L hinv i l hl with hnil | ⟨hne, hone⟩
    · rw [hnil] at hbl
      simp at hbl
    · rw [hone] at hbl
      have hbi : b = s.list i := by simpa using hbl
      rw [hbi, show min_order = 9 from rfl]
      exact hinv.live_free a ha i hne

/-- Witness of C18: the state after `init(base0, 30)`, `alloc(4096)` and
`alloc(8192)`, with the live blocks `(base0, 9)` and `(base0 + 2 ^ 10, 10)`. -/
theorem C18_alloc_only_sound_witness :
    base0 ≠ 0 ∧ 12 ≤ 30 ∧ 30 ≤ 30 ∧
    AllocOnly heap0 base0 30 stateS1b [(base0 + 2 ^ 10, 10), (base0, 9)] ∧
    ([(base0 + 2 ^ 10, 10), (base0, 9)].Pairwise
        (fun a c => disjointBlocks a.1 a.2 c.1 c.2) ∧
      (∀ a, a ∈ [(base0 + 2 ^ 10, 10), (base0, 9)] →
        a.1 ≠ 0 ∧ base0 ≤ a.1 ∧ a.1 + 2 ^ a.2 ≤ base0 + 2 ^ (30 - 3) ∧
        2 ^ a.2 ∣ (a.1 - base0) ∧
        8 * a.1 + 2 ^ (a.2 + 3) ≤ 8 * base0 + 2 ^ 30 ∧
        2 ^ (a.2 + 3) ∣ (8 * a.1 - 8 * base0)) ∧
      (∀ a, a ∈ [(base0 + 2 ^ 10, 10), (base0, 9)] → ∀ i l b, i ≤ orders →
        isChain stateS1b.mem (stateS1b.list i) l → b ∈ l →
        disjointBlocks a.1 a.2 b (i + min_order))) :=
  ⟨by decide, by decide, by decide, allocOnly_demo,
    C18_alloc_only_sound heap0 base0 30 stateS1b _ (by decide) (by decide) (by decide)
      allocOnly_demo⟩

end Buddy
